import Mathlib

/-!
Verification of the Agency-Name-Project record-linkage core.

Shallow embedding, in Lean 4, of the normalization, matching, ledger and
merge functions of the MODA-NYC Agency-Name-Project repository, together
with proofs and refutations of the specified properties.

Strings are modelled as lists of characters; Python character classes
(`\w`, `\s`, `[A-Z]`) are modelled at their ASCII meaning, which is the
meaning Python's `re` gives them on the agency-name data this pipeline
handles.  Scores are modelled as rationals.
-/

namespace PyStr

/-- Model of Python's `\s` (ASCII whitespace as used by `str.split`,
`str.strip` and `re` on this data). -/
def isSpaceChar (c : Char) : Bool :=
  c = ' ' || c = '\t' || c = '\n' || c = '\r' || c = Char.ofNat 11 || c = Char.ofNat 12

/-- ASCII uppercase letter (Python's `[A-Z]`). -/
def isUpperAscii (c : Char) : Bool :=
  65 ≤ c.toNat && c.toNat ≤ 90

/-- ASCII lowercase letter. -/
def isLowerAscii (c : Char) : Bool :=
  97 ≤ c.toNat && c.toNat ≤ 122

/-- ASCII digit. -/
def isDigitAscii (c : Char) : Bool :=
  48 ≤ c.toNat && c.toNat ≤ 57

/-- Model of Python's `\w` (word character): letter, digit or underscore. -/
def isWordChar (c : Char) : Bool :=
  isUpperAscii c || isLowerAscii c || isDigitAscii c || c = '_'

/-- Model of `str.lower` for one character (ASCII case mapping). -/
def lowerChar (c : Char) : Char :=
  if isUpperAscii c then Char.ofNat (c.toNat + 32) else c

/-- Model of `str.lower`. -/
def pyLower (l : List Char) : List Char := l.map lowerChar

/-- The apostrophe character. -/
def apos : Char := Char.ofNat 39

/-- `str.split()` with no argument: split on runs of whitespace, dropping
empty fragments.  `cur` accumulates the current word, reversed. -/
def wordsAux (cur : List Char) : List Char → List (List Char)
  | [] => if cur = [] then [] else [cur.reverse]
  | c :: r =>
    if isSpaceChar c then
      if cur = [] then wordsAux [] r else cur.reverse :: wordsAux [] r
    else
      wordsAux (c :: cur) r

def pyWords (l : List Char) : List (List Char) := wordsAux [] l

/-- `' '.join(ws)`. -/
def joinSpace : List (List Char) → List Char
  | [] => []
  | [w] => w
  | w :: ws => w ++ ' ' :: joinSpace ws

/-- `' '.join(s.split())`: collapse whitespace. -/
def normalizeWs (l : List Char) : List Char := joinSpace (pyWords l)

/-- `str.strip()`: drop leading and trailing whitespace. -/
def pyStrip (l : List Char) : List Char :=
  ((l.dropWhile isSpaceChar).reverse.dropWhile isSpaceChar).reverse

/-- A string with no ASCII uppercase letter (what `[A-Z]` can never
match). -/
def NoUpper (l : List Char) : Prop := ∀ c ∈ l, isUpperAscii c = false

/-- Lexicographic (code-point) comparison of Python strings, as used by
`sorted` and `list.sort`. -/
def charListLe : List Char → List Char → Bool
  | [], _ => true
  | _ :: _, [] => false
  | a :: as, b :: bs =>
    if a.toNat < b.toNat then true
    else if b.toNat < a.toNat then false
    else charListLe as bs

/-- Stable sort of strings ascending, modelling Python's stable `sorted`. -/
def insertLe (le : List Char → List Char → Bool) (x : List Char) :
    List (List Char) → List (List Char)
  | [] => [x]
  | y :: ys => if le x y then x :: y :: ys else y :: insertLe le x ys

def sortStrings (l : List (List Char)) : List (List Char) :=
  l.foldr (insertLe charListLe) []

/-- First-occurrence deduplication, modelling `pandas.unique` /
Python `dict.fromkeys` order. -/
def eraseDupsKeepFirst {α : Type} [DecidableEq α] : List α → List α
  | [] => []
  | x :: xs =>
    x :: (eraseDupsKeepFirst xs).filter (fun y => ¬ (y = x))

end PyStr

namespace ReModel

open PyStr

/-- Model of `re.sub(r'\(.*?\)', '', s)`: non-greedy removal of
parenthesized content.  `.` does not match a newline, so a `(` whose next
`)` lies beyond a newline (or the end) is kept literally.  `pend` buffers
the characters consumed since an as-yet-unclosed `(` (reversed); a `)`
discards the buffer, a newline or the end re-emits it. -/
def removeParensAux (pend : Option (List Char)) : List Char → List Char
  | [] => match pend with
    | none => []
    | some buf => buf.reverse
  | c :: r => match pend with
    | none =>
      if c = '(' then removeParensAux (some [c]) r
      else c :: removeParensAux none r
    | some buf =>
      if c = ')' then removeParensAux none r
      else if c = '\n' then buf.reverse ++ c :: removeParensAux none r
      else removeParensAux (some (c :: buf)) r

def removeParens (l : List Char) : List Char := removeParensAux none l

/-- Model of `re.sub(r"'s\b", '', s)`: drop `'s` when followed by a
non-word character or the end. -/
def removePossessive : List Char → List Char
  | [] => []
  | [c] => [c]
  | c :: d :: r =>
    if c = apos ∧ d = 's' ∧ (r.head?.elim true (fun e => ¬ isWordChar e)) then
      removePossessive r
    else
      c :: removePossessive (d :: r)

/-- `str.replace('&', 'and')`. -/
def replaceAmp (l : List Char) : List Char :=
  l.flatMap (fun c => if c = '&' then ['a', 'n', 'd'] else [c])

/-- `str.replace('+', 'and')`. -/
def replacePlus (l : List Char) : List Char :=
  l.flatMap (fun c => if c = '+' then ['a', 'n', 'd'] else [c])

/-- Model of `re.sub(r'[^\w\s]', '', s)`: keep only word characters and
whitespace. -/
def removePunct (l : List Char) : List Char :=
  l.filter (fun c => isWordChar c || isSpaceChar c)

/-- Model of `re.sub(r'\bnyc\b', 'new york city', s)`.  `prevWord` records
whether the character just before the current position is a word
character (for the leading `\b`); the trailing `\b` checks the next
character. -/
def subNycWordAux (prevWord : Bool) : List Char → List Char
  | 'n' :: 'y' :: 'c' :: r =>
    if ¬ prevWord ∧ (r.head?.elim true (fun d => ¬ isWordChar d)) then
      ('n' :: 'e' :: 'w' :: ' ' :: 'y' :: 'o' :: 'r' :: 'k' :: ' ' ::
        'c' :: 'i' :: 't' :: 'y' :: []) ++ subNycWordAux true r
    else
      'n' :: subNycWordAux true ('y' :: 'c' :: r)
  | c :: r => c :: subNycWordAux (isWordChar c) r
  | [] => []

def subNycWord (l : List Char) : List Char := subNycWordAux false l

end ReModel

namespace DataNormalization

open PyStr ReModel

/-- Abbreviation table of `src/data_normalization.py::standardize_name`. -/
def abbreviations : List (List Char × List Char) :=
  [("dept".data, "department".data),
   ("govt".data, "government".data),
   ("svc".data, "services".data),
   ("comm".data, "commission".data),
   ("admin".data, "administration".data),
   ("mgmt".data, "management".data),
   ("dev".data, "development".data),
   ("ed".data, "education".data),
   ("eng".data, "engineering".data),
   ("env".data, "environmental".data),
   ("hr".data, "human resources".data),
   ("acad".data, "academy".data),
   ("cuny".data, "city university new york".data),
   ("nyc".data, "new york city".data)]

/-- Stopword set of `src/data_normalization.py::standardize_name`
(note: it contains `of`). -/
def stopwords : List (List Char) :=
  ["the".data, "of".data, "for".data, "and".data, "to".data, "a".data,
   "in".data, "on".data]

def expandWord (tbl : List (List Char × List Char)) (w : List Char) : List Char :=
  ((tbl.find? (fun p => p.1 = w)).map Prod.snd).getD w

/-- Expand abbreviations token-wise then rejoin:
`' '.join(abbreviations.get(w, w) for w in name.split())`. -/
def expandAbbreviations (tbl : List (List Char × List Char)) (l : List Char) : List Char :=
  joinSpace ((pyWords l).map (expandWord tbl))

/-- Drop stopword tokens then rejoin. -/
def removeStopwords (stop : List (List Char)) (l : List Char) : List Char :=
  joinSpace ((pyWords l).filter (fun w => ¬ w ∈ stop))

/-- Invariant of the words `standardize_name` outputs: non-empty, made
of lowercase word characters, not an abbreviation key and not a
stopword.  On such words every stage of a second `standardize_name`
pass is the identity. -/
def CanonicalWord (w : List Char) : Prop :=
  w ≠ [] ∧
  (∀ c ∈ w, isWordChar c = true ∧ isUpperAscii c = false ∧ isSpaceChar c = false) ∧
  abbreviations.find? (fun p => p.1 = w) = none ∧
  ¬ w ∈ stopwords

/-- `src/data_normalization.py::standardize_name` on the character list. -/
def standardizeChars (l : List Char) : List Char :=
  removeStopwords stopwords
    (expandAbbreviations abbreviations
      (normalizeWs
        (removePunct
          (replaceAmp
            (removePossessive
              (removeParens
                (pyLower l)))))))

/-- `src/data_normalization.py::standardize_name`.  The Python function
returns `''` on non-string input; the embedding types its input as a
string. -/
def standardize_name (s : String) : String :=
  ⟨standardizeChars s.data⟩

end DataNormalization

namespace Preprocessing

open PyStr ReModel

/-- Abbreviation table of
`src/preprocessing/data_normalization.py::standardize_name`
(no `nyc` entry: `nyc` is expanded earlier by `re.sub(r'\bnyc\b', ...)`). -/
def abbreviations : List (List Char × List Char) :=
  [("dept".data, "department".data),
   ("govt".data, "government".data),
   ("svc".data, "services".data),
   ("comm".data, "commission".data),
   ("admin".data, "administration".data),
   ("mgmt".data, "management".data),
   ("dev".data, "development".data),
   ("ed".data, "education".data),
   ("eng".data, "engineering".data),
   ("env".data, "environmental".data),
   ("hr".data, "human resources".data),
   ("acad".data, "academy".data),
   ("cuny".data, "city university new york".data)]

/-- Stopword set of the preprocessing `standardize_name`; `of` is
purposely excluded in the source. -/
def stopwords : List (List Char) :=
  ["the".data, "for".data, "to".data, "a".data, "in".data, "on".data]

/-- `src/preprocessing/data_normalization.py::standardize_name` on the
character list. -/
def standardizeChars (l : List Char) : List Char :=
  pyStrip
    (DataNormalization.removeStopwords stopwords
      (DataNormalization.expandAbbreviations abbreviations
        (normalizeWs
          (removePunct
            (removeParens
              (replaceAmp
                (replacePlus
                  (subNycWord
                    (pyLower l)))))))))

/-- `src/preprocessing/data_normalization.py::standardize_name`. -/
def standardize_name (s : String) : String :=
  ⟨standardizeChars s.data⟩

/-- Organizational-term table of `global_normalize_name`. -/
def orgTerms : List (List Char × List Char) :=
  [("dept".data, "department".data),
   ("comm".data, "commission".data),
   ("auth".data, "authority".data),
   ("admin".data, "administration".data),
   ("corp".data, "corporation".data),
   ("dev".data, "development".data),
   ("svcs".data, "services".data),
   ("svc".data, "service".data),
   ("tech".data, "technology".data),
   ("mgmt".data, "management".data),
   ("ops".data, "operations".data)]

/-- The word-processing loop of `global_normalize_name`: rewrite the pair
`mayors office` to `office of the mayor`, otherwise expand
organizational terms. -/
def processWords : List (List Char) → List (List Char)
  | [] => []
  | [w] => [DataNormalization.expandWord orgTerms w]
  | w :: w2 :: rest =>
    if w = "mayors".data ∧ w2 = "office".data then
      "office".data :: "of".data :: "the".data :: "mayor".data :: processWords rest
    else
      DataNormalization.expandWord orgTerms w :: processWords (w2 :: rest)

/-- Substring containment, modelling Python's `in` on strings. -/
def containsSub (pat : List Char) : List Char → Bool
  | [] => pat.isPrefixOf []
  | c :: r => pat.isPrefixOf (c :: r) || containsSub pat r

/-- `str.replace('nyc', 'new york city')`: substring replacement, left to
right, non-overlapping. -/
def replaceNycSub : List Char → List Char
  | 'n' :: 'y' :: 'c' :: r => "new york city".data ++ replaceNycSub r
  | c :: r => c :: replaceNycSub r
  | [] => []

/-- `src/preprocessing/data_normalization.py::global_normalize_name`. -/
def global_normalize_name (s : String) : String :=
  let normalized := (standardize_name s).data
  let normalized := joinSpace (processWords (pyWords normalized))
  let normalized :=
    if containsSub "new york city".data normalized then replaceNycSub normalized
    else normalized
  ⟨pyStrip normalized⟩

end Preprocessing

namespace RapidFuzz

open PyStr

/-- Fuelled longest-common-subsequence length (fuel bounds the recursion;
`a.length + b.length` fuel is always sufficient). -/
def lcsF : ℕ → List Char → List Char → ℕ
  | 0, _, _ => 0
  | f + 1, a :: as, b :: bs =>
    if a = b then 1 + lcsF f as bs
    else max (lcsF f as (b :: bs)) (lcsF f (a :: as) bs)
  | _ + 1, _, _ => 0

def lcsLen (a b : List Char) : ℕ := lcsF (a.length + b.length) a b

/-- Model of `rapidfuzz.fuzz.ratio`: normalized InDel similarity in
[0,100].  The InDel distance of `a` and `b` is
`a.length + b.length - 2 * lcsLen a b`, and
`ratio = 100 * (1 - dist / (len a + len b))`; two empty strings score
100. -/
def ratio (a b : List Char) : ℚ :=
  if a.length + b.length = 0 then 100
  else (200 * lcsLen a b : ℚ) / (a.length + b.length)

/-- Model of `rapidfuzz.fuzz.token_sort_ratio`: split both strings on
whitespace, sort the tokens, rejoin with single spaces, and take
`ratio`. -/
def token_sort_ratio (a b : List Char) : ℚ :=
  ratio (joinSpace (sortStrings (pyWords a))) (joinSpace (sortStrings (pyWords b)))

end RapidFuzz

namespace EnhancedMatching

open PyStr

/-- Match one-or-more whitespace (`\s+`, greedy); returns the rest. -/
def matchWs : List Char → Option (List Char)
  | c :: r => if isSpaceChar c then some (r.dropWhile isSpaceChar) else none
  | [] => none

/-- Match a literal string; returns the rest. -/
def matchLit (pat l : List Char) : Option (List Char) :=
  if pat.isPrefixOf l then some (l.drop pat.length) else none

/-- Match one-or-more word characters (`(\w+)`, greedy); returns the
captured run and the rest. -/
def matchWord : List Char → Option (List Char × List Char)
  | c :: r =>
    if isWordChar c then some (c :: r.takeWhile isWordChar, r.dropWhile isWordChar)
    else none
  | [] => none

/-- Optionally consume one given character (`x?`, greedy). -/
def matchOpt (x : Char) : List Char → List Char
  | c :: r => if c = x then r else c :: r
  | [] => []

/-- Is the next position a word boundary on the right (`\b` after a word
character): end of input or a non-word character. -/
def boundaryRight (l : List Char) : Bool :=
  l.head?.elim true (fun d => ¬ isWordChar d)

/-- Try `\b(nyc|new york city)\s+` at the current position (`prevWord`
says whether the previous input character is a word character). -/
def tryNycLeading (prevWord : Bool) (l : List Char) : Option (List Char) :=
  if prevWord then none
  else
    match matchLit "nyc".data l with
    | some r => matchWs r
    | none =>
      match matchLit "new york city".data l with
      | some r => matchWs r
      | none => none

/-- Try `,?\s+(nyc|new york city)\b` at the current position. -/
def tryNycSuffix (l : List Char) : Option (List Char) :=
  let core (m : List Char) : Option (List Char) :=
    match matchWs m with
    | none => none
    | some m1 =>
      match matchLit "nyc".data m1 with
      | some m2 => if boundaryRight m2 then some m2 else none
      | none =>
        match matchLit "new york city".data m1 with
        | some m2 => if boundaryRight m2 then some m2 else none
        | none => none
  match l with
  | ',' :: r => core r
  | _ => core l

/-- Deletion scanner: walk the string, removing every match found by
`try?`, resuming after each match (`re.sub(pat, '', s)` for a pattern
with a leading `\b`).  Fuel is the input length. -/
def delScanAux (try? : Bool → List Char → Option (List Char)) :
    ℕ → Bool → List Char → List Char
  | 0, _, l => l
  | _ + 1, _, [] => []
  | f + 1, prevWord, c :: r =>
    match try? prevWord (c :: r) with
    | some rest => delScanAux try? f false rest
    | none => c :: delScanAux try? f (isWordChar c) r

/-- Rewrite scanner: walk the string, replacing every match found by
`try?` with its computed replacement, resuming after each match
(`re.sub(pat, repl, s)` for a pattern with no `\b`). -/
def rwScanAux (try? : List Char → Option (List Char × List Char)) :
    ℕ → List Char → List Char
  | 0, l => l
  | _ + 1, [] => []
  | f + 1, c :: r =>
    match try? (c :: r) with
    | some (repl, rest) => repl ++ rwScanAux try? f rest
    | none => c :: rwScanAux try? f r

/-- `EnhancedMatcher.standardize_nyc_references`: strip NYC prefix and
suffix references, then `strip()`. -/
def standardize_nyc_references (l : List Char) : List Char :=
  let l1 := delScanAux (fun p m => tryNycLeading p m) l.length false l
  let l2 := delScanAux (fun _ m => tryNycSuffix m) l1.length false l1
  pyStrip l2

/-- Try `department\s+of\s+(\w+)` with replacement `\1 department`. -/
def tryDeptOf (l : List Char) : Option (List Char × List Char) :=
  match matchLit "department".data l with
  | none => none
  | some r =>
    match matchWs r with
    | none => none
    | some r1 =>
      match matchLit "of".data r1 with
      | none => none
      | some r2 =>
        match matchWs r2 with
        | none => none
        | some r3 =>
          match matchWord r3 with
          | none => none
          | some (w, rest) => some (w ++ ' ' :: "department".data, rest)

/-- Try `office\s+of\s+(\w+)` with replacement `\1 office`. -/
def tryOfficeOf (l : List Char) : Option (List Char × List Char) :=
  match matchLit "office".data l with
  | none => none
  | some r =>
    match matchWs r with
    | none => none
    | some r1 =>
      match matchLit "of".data r1 with
      | none => none
      | some r2 =>
        match matchWs r2 with
        | none => none
        | some r3 =>
          match matchWord r3 with
          | none => none
          | some (w, rest) => some (w ++ ' ' :: "office".data, rest)

/-- Try `commission\s+on\s+(\w+)` with replacement `\1 commission`. -/
def tryCommissionOn (l : List Char) : Option (List Char × List Char) :=
  match matchLit "commission".data l with
  | none => none
  | some r =>
    match matchWs r with
    | none => none
    | some r1 =>
      match matchLit "on".data r1 with
      | none => none
      | some r2 =>
        match matchWs r2 with
        | none => none
        | some r3 =>
          match matchWord r3 with
          | none => none
          | some (w, rest) => some (w ++ ' ' :: "commission".data, rest)

/-- `EnhancedMatcher.standardize_org_type`. -/
def standardize_org_type (l : List Char) : List Char :=
  let l1 := rwScanAux tryDeptOf l.length l
  let l2 := rwScanAux tryOfficeOf l1.length l1
  let l3 := rwScanAux tryCommissionOn l2.length l2
  pyStrip l3

/-- Match `mayor'?s?` and return the rest. -/
def matchMayors (l : List Char) : Option (List Char) :=
  match matchLit "mayor".data l with
  | none => none
  | some r => some (matchOpt 's' (matchOpt apos r))

/-- Try `mayor'?s?\s+office\s+of\s+(\w+)` with replacement
`office of \1`. -/
def tryMayorsOfficeOf (l : List Char) : Option (List Char × List Char) :=
  match matchMayors l with
  | none => none
  | some r =>
    match matchWs r with
    | none => none
    | some r1 =>
      match matchLit "office".data r1 with
      | none => none
      | some r2 =>
        match matchWs r2 with
        | none => none
        | some r3 =>
          match matchLit "of".data r3 with
          | none => none
          | some r4 =>
            match matchWs r4 with
            | none => none
            | some r5 =>
              match matchWord r5 with
              | none => none
              | some (w, rest) => some ("office of ".data ++ w, rest)

/-- Try `mayor'?s?\s+(\w+)\s+office` with replacement `\1 office`. -/
def tryMayorsX (l : List Char) : Option (List Char × List Char) :=
  match matchMayors l with
  | none => none
  | some r =>
    match matchWs r with
    | none => none
    | some r1 =>
      match matchWord r1 with
      | none => none
      | some (w, r2) =>
        match matchWs r2 with
        | none => none
        | some r3 =>
          match matchLit "office".data r3 with
          | none => none
          | some rest => some (w ++ ' ' :: "office".data, rest)

/-- `EnhancedMatcher.standardize_mayors_office`. -/
def standardize_mayors_office (l : List Char) : List Char :=
  let l1 := rwScanAux tryMayorsOfficeOf l.length l
  let l2 := rwScanAux tryMayorsX l1.length l1
  pyStrip l2

/-- `EnhancedMatcher.abbreviation_map`. -/
def abbreviationMap : List (List Char × List Char) :=
  [("dept".data, "department".data),
   ("comm".data, "commission".data),
   ("svcs".data, "services".data),
   ("admin".data, "administration".data),
   ("auth".data, "authority".data),
   ("dev".data, "development".data),
   ("mgmt".data, "management".data)]

/-- `EnhancedMatcher.expand_abbreviations`: token-wise lookup on the
lowercased token, keeping the original token when absent. -/
def expand_abbreviations (l : List Char) : List Char :=
  joinSpace ((pyWords l).map (fun w =>
    ((abbreviationMap.find? (fun p => p.1 = pyLower w)).map Prod.snd).getD w))

/-- `EnhancedMatcher.preprocess_agency_name`.  `if not name: return name`
maps the empty string to itself. -/
def preprocess_agency_name (l : List Char) : List Char :=
  if l = [] then []
  else
    pyStrip
      (expand_abbreviations
        (standardize_mayors_office
          (standardize_org_type
            (standardize_nyc_references
              (pyLower l)))))

/-- `EnhancedMatcher.check_org_type_match`: the two names share an
organizational-type token. -/
def orgTypes : List (List Char) :=
  ["department".data, "office".data, "commission".data, "authority".data,
   "board".data]

def check_org_type_match (s1 s2 : List Char) : Bool :=
  orgTypes.any (fun t =>
    ((pyWords (pyLower s1)).any (fun w => w = t)) &&
    ((pyWords (pyLower s2)).any (fun w => w = t)))

/-- `re.search(r'\(([A-Z]+)\)', s)`: first `(` followed by a non-empty
run of ASCII uppercase letters and a `)`; returns the run. -/
def extractAcronymAux : ℕ → List Char → Option (List Char)
  | 0, _ => none
  | _ + 1, [] => none
  | f + 1, c :: r =>
    if c = '(' then
      let run := r.takeWhile isUpperAscii
      if run ≠ [] ∧ (r.dropWhile isUpperAscii).head? = some ')' then some run
      else extractAcronymAux f r
    else extractAcronymAux f r

def extract_acronym (l : List Char) : Option (List Char) :=
  extractAcronymAux l.length l

/-- `EnhancedMatcher.check_acronym_match`. -/
def check_acronym_match (s1 s2 : List Char) : Bool :=
  match extract_acronym s1, extract_acronym s2 with
  | some a1, some a2 => a1 = a2
  | _, _ => false

/-- `EnhancedMatcher.canonical_names`. -/
def canonicalNames : List (List Char × List (List Char)) :=
  [("education department".data,
    ["department education".data, "public schools new york city".data])]

/-- `EnhancedMatcher.check_canonical_names` (the loop returns on the
first canonical key equal to either name). -/
def checkCanonAux (n1 n2 : List Char) :
    List (List Char × List (List Char)) → Bool
  | [] => false
  | (canon, variants) :: rest =>
    if n1 = canon then variants.any (fun v => v = n2)
    else if n2 = canon then variants.any (fun v => v = n1)
    else checkCanonAux n1 n2 rest

def check_canonical_names (name1 name2 : List Char) : Bool :=
  checkCanonAux (pyLower name1) (pyLower name2) canonicalNames

/-- `EnhancedMatcher.get_enhanced_score`. -/
def get_enhanced_score (s1 s2 : List Char) : ℚ :=
  let base := RapidFuzz.ratio s1 s2 * (0.6 : ℚ) +
    RapidFuzz.token_sort_ratio s1 s2 * (0.4 : ℚ)
  let base1 := if check_org_type_match s1 s2 then base + 5 else base
  let base2 := if check_acronym_match s1 s2 then base1 + 10 else base1
  min 100 base2

/-- `EnhancedMatcher.find_matches`. -/
def find_matches (name1 name2 : List Char) : ℚ :=
  let std1 := preprocess_agency_name name1
  let std2 := preprocess_agency_name name2
  if std1 = std2 then 100
  else if check_canonical_names std1 std2 then 100
  else get_enhanced_score std1 std2

end EnhancedMatching

namespace ApplyVerifiedMatches

open PyStr

/-- One absorbed-record reference inside the `merged_from` provenance
list (the Python code stores it as a JSON object
`id/name/score`). -/
structure MergeRef where
  id : String
  name : String
  score : ℚ
deriving DecidableEq, Repr

/-- One merge-note entry.  The Python code renders these as a
newline-joined string `"Merged with <id> (score: <s>)" [+ conflicts]`;
the embedding keeps the structured content. -/
structure MergeNote where
  id : String
  score : ℚ
  conflicts : List String
deriving DecidableEq, Repr

/-- A cell value of the record table: a string, a `merged_from`
provenance list, a `merge_note` log, or a temporary `merge_conflicts`
list.  A missing value (`NaN`) is `Option.none` around the cell. -/
inductive Cell where
  | vStr (s : String)
  | vRefs (l : List MergeRef)
  | vNotes (l : List MergeNote)
  | vConfl (l : List String)
deriving DecidableEq, Repr

/-- String rendering of a cell, as Python's `str()`/f-string would
produce; list-valued cells render to an unspecified bracketed text on
which no verified property depends. -/
def showCell : Cell → String
  | .vStr s => s
  | .vRefs _ => "[refs]"
  | .vNotes _ => "[notes]"
  | .vConfl _ => "[conflicts]"

/-- Python truthiness of a cell value. -/
def cellTruthy : Cell → Bool
  | .vStr s => ¬ s = ""
  | .vRefs l => ¬ l = []
  | .vNotes l => ¬ l = []
  | .vConfl l => ¬ l = []

/-- A record (a pandas `Series`): association list from column name to
optional cell, in column order. -/
abbrev Row := List (String × Option Cell)

abbrev Pair := String × String

/-- Cell of a record at a column: `none` when the column is absent or
holds a null. -/
def getCell (r : Row) (k : String) : Option Cell :=
  match r.find? (fun p => p.1 = k) with
  | some p => p.2
  | none => none

def hasKey (r : Row) (k : String) : Bool :=
  r.any (fun p => p.1 = k)

/-- Series assignment: update the column in place, or append it. -/
def setCell : Row → String → Option Cell → Row
  | [], k, v => [(k, v)]
  | p :: r, k, v => if p.1 = k then (k, v) :: r else p :: setCell r k v

/-- `del record[k]`. -/
def delKey (r : Row) (k : String) : Row :=
  r.filter (fun p => ¬ p.1 = k)

/-- `record.get(k, d)` rendered to a string (`str()` of a missing value
is `'nan'`). -/
def getStrOr (r : Row) (k d : String) : String :=
  match r.find? (fun p => p.1 = k) with
  | none => d
  | some (_, none) => "nan"
  | some (_, some c) => showCell c

/-- `record.notna().sum()`. -/
def countNotNa (r : Row) : ℕ :=
  (r.filter (fun p => p.2.isSome)).length

/-- `list(set(preferred.index) | set(secondary.index))`; Python's set
order is unspecified, modelled as first-seen order. -/
def unionKeys (p s : Row) : List String :=
  (p.map Prod.fst) ++
    ((s.map Prod.fst).filter (fun k => ¬ (p.map Prod.fst).contains k))

/-- `Series.reindex(cols)`: missing columns become null. -/
def reindexTo (cols : List String) (r : Row) : Row :=
  cols.map (fun k => (k, getCell r k))

/-- The source-specific name fields of `merge_record_information`, in
iteration order (`ops`, `hoo`, `primary`). -/
def sourceNameFields : List String :=
  ["Name - Ops", "Name - HOO", "NameNormalized", "Agency Name"]

/-- The conflict message
`f"{col}: preferred='{merged[col]}', secondary='{secondary[col]}'"`. -/
def conflictMsg (col : String) (mv sv : Cell) : String :=
  let q := String.singleton apos
  col ++ ": preferred=" ++ q ++ showCell mv ++ q ++ ", secondary=" ++ q ++
    showCell sv ++ q

/-- First loop of `merge_record_information`: preserve source-specific
names, combining differing values with a `|`. -/
def mergeSourceNames (s' merged : Row) : Row :=
  sourceNameFields.foldl (fun m field =>
    if hasKey s' field ∧ (getCell s' field).isSome then
      if ¬ hasKey m field ∨ getCell m field = none then
        setCell m field (getCell s' field)
      else if ¬ (getCell m field = getCell s' field) then
        setCell m field (some (Cell.vStr
          (getStrOr m field "" ++ "|" ++ getStrOr s' field "")))
      else m
    else m) merged

/-- Second loop of `merge_record_information`: fill nulls of the
preferred record from the secondary, recording conflicts; the metadata
fields `merged_from` and `merge_note` are skipped. -/
def mergeOtherStep (s' : Row) (acc : Row × List String) (col : String) :
    Row × List String :=
  if col = "merged_from" ∨ col = "merge_note" then acc
  else
    match getCell acc.1 col, getCell s' col with
    | none, some v => (setCell acc.1 col (some v), acc.2)
    | some mv, some sv =>
      if ¬ (mv = sv) then (acc.1, acc.2 ++ [conflictMsg col mv sv]) else acc
    | _, _ => acc

/-- `apply_verified_matches.py::merge_record_information`. -/
def merge_record_information (preferred secondary : Row) : Row :=
  let allCols := unionKeys preferred secondary
  let p' := reindexTo allCols preferred
  let s' := reindexTo allCols secondary
  let m1 := mergeSourceNames s' p'
  let res := allCols.foldl (mergeOtherStep s') (m1, [])
  if ¬ res.2 = [] then setCell res.1 "merge_conflicts" (some (Cell.vConfl res.2))
  else res.1

/-- `apply_verified_matches.py::update_metadata`: build the new
`merged_from` list and `merge_note` log (and drop the temporary
`merge_conflicts` field from the record). -/
def update_metadata (record secondaryRec : Row) (score : ℚ) :
    List MergeRef × List MergeNote × Row :=
  let oldRefs :=
    match getCell record "merged_from" with
    | some (Cell.vRefs l) => l
    | _ => []
  let idStr := getStrOr secondaryRec "RecordID" ""
  let refs := oldRefs ++ [⟨idStr, getStrOr secondaryRec "Name" "", score⟩]
  let conflPair :=
    match getCell record "merge_conflicts" with
    | some c =>
      if cellTruthy c then
        ((match c with | Cell.vConfl l => l | _ => []),
          delKey record "merge_conflicts")
      else ([], record)
    | none => ([], record)
  let oldNotes :=
    match getCell conflPair.2 "merge_note" with
    | some c => if cellTruthy c then
        (match c with | Cell.vNotes l => l | _ => []) else []
    | none => []
  (refs, oldNotes ++ [⟨idStr, score, conflPair.1⟩], conflPair.2)

/-- One row of the consolidated-matches ledger. -/
structure MatchRow where
  Source : String
  Target : String
  Score : ℚ
  Label : String
  SourceID : Option String
  TargetID : Option String
deriving DecidableEq, Repr

/-- The record table: column list plus rows (each row an association
list over exactly those columns). -/
structure Df where
  cols : List String
  rows : List Row
deriving DecidableEq, Repr

/-- Replace-or-append into a string-keyed map (Python dict
assignment). -/
def insertReplace : List (String × ℕ) → String → ℕ → List (String × ℕ)
  | [], k, v => [(k, v)]
  | p :: r, k, v => if p.1 = k then (k, v) :: r else p :: insertReplace r k v

/-- `apply_verified_matches.py::build_record_map`: RecordID to row
position, later occurrences overwriting earlier ones. -/
def build_record_map (rows : List Row) : List (String × ℕ) :=
  rows.enum.foldl (fun m p =>
    match getCell p.2 "RecordID" with
    | some c => insertReplace m (showCell c) p.1
    | none => m) []

def lookupMap (m : List (String × ℕ)) (k : String) : Option ℕ :=
  (m.find? (fun p => p.1 = k)).map Prod.snd

/-- `sorted([a, b])` as an ordered pair. -/
def sortPair (a b : String) : Pair :=
  if charListLe a.data b.data then (a, b) else (b, a)

/-- Outcome of processing one ledger row inside the batch loop. -/
inductive StepResult where
  | skip
  | apply (pair : Pair) (keptIdx remIdx : ℕ) (merged : Row)
deriving DecidableEq, Repr

/-- The loop body of `process_verified_matches` for one match row: skip
on missing/self/already-processed/unresolvable ids, otherwise keep the
more complete record (the source record on ties), merge, and queue the
update and the drop.  Reads the batch-start `rows` (updates and drops
are deferred to the end of the batch). -/
def process_match (rows : List Row) (recordMap : List (String × ℕ))
    (processed : List Pair) (m : MatchRow) : StepResult :=
  match m.SourceID, m.TargetID with
  | some s, some t =>
    if s = "" ∨ t = "" then .skip
    else if s = t then .skip
    else
      let pr := sortPair s t
      if pr ∈ processed then .skip
      else
        match lookupMap recordMap s, lookupMap recordMap t with
        | some si, some ti =>
          match rows.get? si, rows.get? ti with
          | some sRec, some tRec =>
            let sel :=
              if countNotNa tRec ≤ countNotNa sRec then (sRec, tRec, si, ti)
              else (tRec, sRec, ti, si)
            let merged := merge_record_information sel.1 sel.2.1
            let md := update_metadata merged sel.2.1 m.Score
            let merged' := setCell
              (setCell md.2.2 "merged_from" (some (Cell.vRefs md.1)))
              "merge_note" (some (Cell.vNotes md.2.1))
            .apply pr sel.2.2.1 sel.2.2.2 merged'
          | _, _ => .skip
        | _, _ => .skip
  | _, _ => .skip

/-- Per-batch accumulator (`indices_to_drop`, `batch_updates`,
`batch_processed_ids`). -/
structure BatchAcc where
  drops : List ℕ
  updates : List (ℕ × Row)
  applied : List Pair
deriving DecidableEq, Repr

def run_matches (rows : List Row) (recordMap : List (String × ℕ))
    (processed : List Pair) : List MatchRow → BatchAcc → BatchAcc
  | [], acc => acc
  | m :: ms, acc =>
    match process_match rows recordMap processed m with
    | .skip => run_matches rows recordMap processed ms acc
    | .apply pr k r mg =>
      run_matches rows recordMap processed ms
        ⟨acc.drops ++ [r], acc.updates ++ [(k, mg)], acc.applied ++ [pr]⟩

/-- `df.loc[idx, col] = record[col]` for every column of the record that
exists in the table. -/
def applyRecord (cols : List String) (row : Row) (rec : Row) : Row :=
  rec.foldl (fun r kv => if cols.contains kv.1 then setCell r kv.1 kv.2 else r) row

def applyUpdates (cols : List String) (rows : List Row)
    (updates : List (ℕ × Row)) : List Row :=
  updates.foldl (fun rs u =>
    match rs.get? u.1 with
    | some row => rs.set u.1 (applyRecord cols row u.2)
    | none => rs) rows

/-- `df.drop(index=indices).reset_index(drop=True)`. -/
def dropIndices (rows : List Row) (drops : List ℕ) : List Row :=
  (rows.enum.filter (fun p => ¬ drops.contains p.1)).map Prod.snd

/-- One batch of `process_verified_matches`: build the record map,
process the batch against the batch-start table, then apply the queued
updates and drops. -/
def run_batch (df : Df) (processed : List Pair) (batch : List MatchRow) :
    Df × List Pair :=
  let rm := build_record_map df.rows
  let acc := run_matches df.rows rm processed batch ⟨[], [], []⟩
  let rows1 := applyUpdates df.cols df.rows acc.updates
  let rows2 := dropIndices rows1 acc.drops
  (⟨df.cols, rows2⟩, acc.applied)

/-- The batch loop; returns the final table, the final processed-pairs
set and the per-batch lists of applied pairs. -/
def run_batches (df : Df) (processed : List Pair) :
    List (List MatchRow) → Df × List Pair × List (List Pair)
  | [] => (df, processed, [])
  | b :: bs =>
    let step := run_batch df processed b
    let rest := run_batches step.1 (processed ++ step.2) bs
    (rest.1, rest.2.1, step.2 :: rest.2.2)

/-- `initialize_metadata_columns`. -/
def initialize_metadata_columns (df : Df) : Df :=
  ["merged_from", "merge_note"].foldl (fun d col =>
    if d.cols.contains col then d
    else ⟨d.cols ++ [col], d.rows.map (fun r => r ++ [(col, none)])⟩) df

/-- Stable insertion sort by score, descending (`sort_values('Score',
ascending=False)`; pandas' default quicksort is unstable, so tie order
is unspecified there — the embedding fixes the stable order). -/
def insertDesc (m : MatchRow) : List MatchRow → List MatchRow
  | [] => [m]
  | x :: xs => if x.Score < m.Score then m :: x :: xs else x :: insertDesc m xs

def sortMatchesDesc (l : List MatchRow) : List MatchRow :=
  l.foldr insertDesc []

/-- Split into batches of 50 (fuelled; the input length is always
enough fuel). -/
def chunksAux : ℕ → List MatchRow → List (List MatchRow)
  | 0, _ => []
  | f + 1, l => if l = [] then [] else l.take 50 :: chunksAux f (l.drop 50)

def chunks50 (l : List MatchRow) : List (List MatchRow) :=
  chunksAux l.length l

/-- `apply_verified_matches.py::process_verified_matches`: initialize
metadata columns, sort the ledger by score descending, and run the
batch loop.  Returns the final table, the processed unordered id
pairs, and the per-batch applied pairs. -/
def process_verified_matches (df : Df) (ledger : List MatchRow) :
    Df × List Pair × List (List Pair) :=
  run_batches (initialize_metadata_columns df) [] (chunks50 (sortMatchesDesc ledger))

/-- RecordIDs of the table's rows, in order (null ids skipped). -/
def recordIds (df : Df) : List String :=
  df.rows.filterMap (fun r =>
    match getCell r "RecordID" with
    | some c => some (showCell c)
    | none => none)

end ApplyVerifiedMatches


namespace GenerateMatches

open PyStr
open ApplyVerifiedMatches (Pair sortPair)

/-- One record as `generate_matches.py` reads it (the columns its
candidate generation touches). -/
structure GenRecord where
  RecordID : String
  NameNormalized : String
deriving DecidableEq, Repr

/-- One row of the consolidated-matches file as written by
`generate_matches.py`. -/
structure LedgerEntry where
  Source : String
  Target : String
  Score : ℚ
  Label : String
  SourceID : Option String
  TargetID : Option String
  Notes : String
deriving DecidableEq, Repr

/-- All index pairs `i < j` of the (already unique) name list, in loop
order. -/
def allPairs : List String → List Pair
  | [] => []
  | n :: rest => rest.map (fun m => (n, m)) ++ allPairs rest

/-- First record carrying the given normalized name
(`df[df['NameNormalized'] == name].iloc[0]`). -/
def idOf (records : List GenRecord) (n : String) : Option String :=
  (records.find? (fun r => r.NameNormalized = n)).map GenRecord.RecordID

/-- The `Notes` text for one candidate pair. -/
def candidateNotes (n1 n2 : String) (score : ℚ) : String :=
  let l1 := if score = 100 then ["Exact match after normalization"] else []
  let dep := fun (s : String) =>
    Preprocessing.containsSub "dept".data (pyLower s.data) ||
    Preprocessing.containsSub "department".data (pyLower s.data)
  let l2 := if dep n1 || dep n2 then ["Department variation"] else []
  let nycSub := fun (s : String) => Preprocessing.containsSub "nyc".data (pyLower s.data)
  let l3 := if nycSub n1 || nycSub n2 then ["NYC prefix/suffix variation"] else []
  String.intercalate "; " (l1 ++ l2 ++ l3)

/-- The body of the candidate-generation loop for one name pair: skip
pairs already in the ledger (both orderings, via the sorted pair),
score the rest with `EnhancedMatcher.find_matches`, and emit an entry
when the score is at least 82, auto-labelled `Match` at 95 or above.
(`round(score, 1)` only affects the stored numeral; the embedding
stores the exact score.) -/
def candidateFor (records : List GenRecord) (existingPairs : List Pair)
    (p : Pair) : Option LedgerEntry :=
  if sortPair p.1 p.2 ∈ existingPairs then none
  else
    let score := EnhancedMatching.find_matches p.1.data p.2.data
    if (82 : ℚ) ≤ score then
      some ⟨p.1, p.2, score, if (95 : ℚ) ≤ score then "Match" else "",
        idOf records p.1, idOf records p.2, candidateNotes p.1 p.2 score⟩
    else none

/-- `generate_matches.py::generate_potential_matches`: compare every
unordered pair of unique normalized names and collect the emitted
candidates. -/
def generate_potential_matches (records : List GenRecord)
    (existingPairs : List Pair) : List LedgerEntry :=
  (allPairs (eraseDupsKeepFirst (records.map GenRecord.NameNormalized))).filterMap
    (candidateFor records existingPairs)

/-- Stable insertion sort of ledger entries by score, descending. -/
def insertEntryDesc (e : LedgerEntry) : List LedgerEntry → List LedgerEntry
  | [] => [e]
  | x :: xs => if x.Score < e.Score then e :: x :: xs else x :: insertEntryDesc e xs

def sortEntriesDesc (l : List LedgerEntry) : List LedgerEntry :=
  l.foldr insertEntryDesc []

/-- `drop_duplicates(subset=['Source', 'Target'], keep='first')`. -/
def dropDupSourceTarget : List Pair → List LedgerEntry → List LedgerEntry
  | _, [] => []
  | seen, e :: rest =>
    if (e.Source, e.Target) ∈ seen then dropDupSourceTarget seen rest
    else e :: dropDupSourceTarget ((e.Source, e.Target) :: seen) rest

/-- `generate_matches.py::save_matches` (existing-file branch): sort the
new matches by score, append them to the existing ledger, de-duplicate
on the ordered `(Source, Target)` pair keeping the first (existing)
entry, and sort the result by score. -/
def save_matches (existing newMatches : List LedgerEntry) : List LedgerEntry :=
  sortEntriesDesc (dropDupSourceTarget [] (existing ++ sortEntriesDesc newMatches))

/-- One generation run of `generate_matches.py::main` against an
existing ledger: collect the existing unordered pairs, generate, and
save. -/
def run_generation (ledger : List LedgerEntry) (records : List GenRecord) :
    List LedgerEntry :=
  let existingPairs := ledger.map (fun e => sortPair e.Source e.Target)
  save_matches ledger (generate_potential_matches records existingPairs)

/-- Number of ledger entries for the unordered pair `(a, b)` (either
orientation). -/
def pairCount (ledger : List LedgerEntry) (a b : String) : ℕ :=
  (ledger.filter (fun e =>
    (e.Source = a ∧ e.Target = b) ∨ (e.Source = b ∧ e.Target = a))).length

/-- The ledger invariant: no two entries are for the same unordered
name pair. -/
def unorderedUnique (ledger : List LedgerEntry) : Prop :=
  ledger.Pairwise (fun e1 e2 =>
    sortPair e1.Source e1.Target ≠ sortPair e2.Source e2.Target)

instance (l : List LedgerEntry) : Decidable (unorderedUnique l) := by
  unfold unorderedUnique
  infer_instance

end GenerateMatches

namespace DataMerging

open PyStr

/-- `'0' + n` as a digit character. -/
def digitChar (n : ℕ) : Char := Char.ofNat (48 + n)

/-- `f"{i:06d}"` for `i < 10^6` (the zero-padded 6-digit serial; the
pipeline never issues more). -/
def pad6 (n : ℕ) : String :=
  ⟨[digitChar (n / 100000 % 10), digitChar (n / 10000 % 10),
    digitChar (n / 1000 % 10), digitChar (n / 100 % 10),
    digitChar (n / 10 % 10), digitChar (n % 10)]⟩

def mkId (pfx : String) (i : ℕ) : String := pfx ++ pad6 i

/-- `re.match(r'^[A-Z]+_\d{6}$', s)`: a non-empty ASCII-uppercase run,
an underscore, exactly six ASCII digits, then the end (`$` also accepts
a single trailing newline). -/
def validRecordId (s : String) : Bool :=
  let l := s.data
  let up := l.takeWhile isUpperAscii
  match l.dropWhile isUpperAscii with
  | '_' :: rest =>
    ¬ up = [] ∧ (rest.take 6).length = 6 ∧ (rest.take 6).all isDigitAscii ∧
      (rest.drop 6 = [] ∨ rest.drop 6 = ['\n'])
  | _ => false

/-- `duplicated()`: flag each position whose value already occurred
earlier. -/
def dupFlags (l : List String) : List Bool :=
  l.enum.map (fun p => decide (p.2 ∈ l.take p.1))

/-- `df.loc[mask, col] = news`: assign the new values, in order, to the
masked positions. -/
def assignAtMask : List String → List Bool → List String → List String
  | [], _, _ => []
  | _ :: xs, true :: ms, n :: ns => n :: assignAtMask xs ms ns
  | x :: xs, true :: ms, [] => x :: assignAtMask xs ms []
  | x :: xs, false :: ms, ns => x :: assignAtMask xs ms ns
  | x :: xs, [], ns => x :: assignAtMask xs [] ns

/-- `data_merging.py::ensure_record_ids` acting on the `RecordID`
column (`none` when the column is absent; `n` is the row count).
Invalid ids are replaced by `REC_`-prefixed serials starting at 0, then
positions flagged as duplicates are replaced by serials starting at 0
again. -/
def ensure_record_ids (pfx : String) (n : ℕ) (col : Option (List String)) :
    List String :=
  match col with
  | none => (List.range n).map (mkId pfx)
  | some ids =>
    let mask := ids.map (fun s => ! validRecordId s)
    let ids1 :=
      if mask.any (fun b => b) then
        assignAtMask ids mask
          ((List.range ((mask.filter (fun b => b)).length)).map (mkId pfx))
      else ids
    let dups := dupFlags ids1
    if dups.any (fun b => b) then
      assignAtMask ids1 dups
        ((List.range ((dups.filter (fun b => b)).length)).map (mkId pfx))
    else ids1

/-- One record of the merged dataset as
`data_merging.py::deduplicate_merged_data` inspects it for survivor
selection. -/
structure DedupRecord where
  RecordID : String
  source : String
deriving DecidableEq, Repr

/-- The declared source-priority order of `deduplicate_merged_data`. -/
def source_order : List String := ["nyc_agencies_export", "ops", "nyc_gov"]

/-- The `for source in source_order: ... break / else` selection: the
first source of the priority order present in the duplicate group, or
the first record's source as fallback. -/
def preferredSource : List DedupRecord → String
  | [] => ""
  | g :: gs =>
    match source_order.find? (fun s => (g :: gs).any (fun r => r.source = s)) with
    | some s => s
    | none => g.source

/-- `group[group['source'] == preferred_source].iloc[0]`: the record a
duplicate group keeps. -/
def keep_record (group : List DedupRecord) : Option DedupRecord :=
  group.find? (fun r => r.source = preferredSource group)

/-- Position of a source in the priority order (smaller is higher
priority). -/
def priorityIdx (s : String) : ℕ := source_order.indexOf s

end DataMerging

namespace SpecModel

open PyStr

/-- Modelled from the spec: `token_set_similarity(a, b)` — similarity
of the two token *sets*: tokens de-duplicated and sorted, rejoined,
then edit similarity. -/
def token_set_similarity (a b : List Char) : ℚ :=
  RapidFuzz.ratio
    (joinSpace (sortStrings (eraseDupsKeepFirst (pyWords a))))
    (joinSpace (sortStrings (eraseDupsKeepFirst (pyWords b))))

/-- Modelled from the spec: the composite score
`0.6 * edit_similarity + 0.4 * token_set_similarity`, plus 5 for a
shared organizational-type token and 10 for equal parenthetical
acronyms, capped at 100. -/
def composite_score (s1 s2 : List Char) : ℚ :=
  min 100
    (RapidFuzz.ratio s1 s2 * (0.6 : ℚ) +
      token_set_similarity s1 s2 * (0.4 : ℚ) +
      (if EnhancedMatching.check_org_type_match s1 s2 then 5 else 0) +
      (if EnhancedMatching.check_acronym_match s1 s2 then 10 else 0))

end SpecModel



namespace ClaimInputs

open ApplyVerifiedMatches

/-- A two-record store for exercising the merge engine on non-confirmed
ledger entries. -/
def dfTwo : Df :=
  ⟨["RecordID", "NameNormalized"],
   [[("RecordID", some (Cell.vStr "REC_000001")),
     ("NameNormalized", some (Cell.vStr "alpha"))],
    [("RecordID", some (Cell.vStr "REC_000002")),
     ("NameNormalized", some (Cell.vStr "alpha beta"))]]⟩

/-- A ledger entry left unreviewed (`Label = ""`). -/
def entryUnreviewed : MatchRow :=
  ⟨"alpha", "alpha beta", 90, "", some "REC_000001", some "REC_000002"⟩

/-- A ledger entry reviewed and rejected (`Label = "NonMatch"`). -/
def entryRejected : MatchRow :=
  ⟨"alpha", "alpha beta", 90, "NonMatch", some "REC_000001", some "REC_000002"⟩

/-- A store holding a sparse primary-export record and a richer ops
record with the same entity. -/
def dfPriority : Df :=
  ⟨["RecordID", "NameNormalized", "source", "URL", "Phone"],
   [[("RecordID", some (Cell.vStr "REC_000001")),
     ("NameNormalized", some (Cell.vStr "alpha")),
     ("source", some (Cell.vStr "nyc_agencies_export")),
     ("URL", none),
     ("Phone", none)],
    [("RecordID", some (Cell.vStr "OPS_000001")),
     ("NameNormalized", some (Cell.vStr "alpha ops")),
     ("source", some (Cell.vStr "ops")),
     ("URL", some (Cell.vStr "http://x")),
     ("Phone", some (Cell.vStr "555"))]]⟩

def entryPriority : MatchRow :=
  ⟨"alpha", "alpha ops", 96, "Match", some "REC_000001", some "OPS_000001"⟩

/-- A three-record store where one record matches two others. -/
def dfThree : Df :=
  ⟨["RecordID", "NameNormalized"],
   [[("RecordID", some (Cell.vStr "REC_000001")),
     ("NameNormalized", some (Cell.vStr "alpha"))],
    [("RecordID", some (Cell.vStr "REC_000002")),
     ("NameNormalized", some (Cell.vStr "alpha beta"))],
    [("RecordID", some (Cell.vStr "REC_000003")),
     ("NameNormalized", some (Cell.vStr "alpha gamma"))]]⟩

def entriesShareRecord : List MatchRow :=
  [⟨"alpha", "alpha beta", 100, "Match", some "REC_000001", some "REC_000002"⟩,
   ⟨"alpha", "alpha gamma", 90, "Match", some "REC_000001", some "REC_000003"⟩]

/-- Preferred-side record whose `merged_from` is null. -/
def rowPrimaryNullMeta : Row :=
  [("RecordID", some (Cell.vStr "REC_000001")),
   ("merged_from", none)]

/-- Secondary-side record carrying a non-null `merged_from`. -/
def rowSecondaryWithMeta : Row :=
  [("RecordID", some (Cell.vStr "REC_000002")),
   ("merged_from", some (Cell.vRefs [⟨"REC_000009", "old", 88⟩]))]

end ClaimInputs

open ApplyVerifiedMatches ClaimInputs in
/-- Claim C1: the merge engine is claimed to collapse records only for
ledger entries labelled `Match`; in the code `process_verified_matches`
never reads `Label`, so an `Unreviewed` (`""`) entry and a rejected
(`"NonMatch"`) entry both merge their two records and remove one,
shrinking the two-record store to one record. -/
theorem c1_label_ignored_nonconfirmed_entries_merge :
    entryUnreviewed.Label = "" ∧
    entryRejected.Label = "NonMatch" ∧
    dfTwo.rows.length = 2 ∧
    (process_verified_matches dfTwo [entryUnreviewed]).1.rows.length = 1 ∧
    (process_verified_matches dfTwo [entryRejected]).1.rows.length = 1 := by
  decide

open ApplyVerifiedMatches ClaimInputs in
/-- Claim C2, counterexample: on a confirmed match between a sparse
`nyc_agencies_export` record and a more complete `ops` record, the
engine keeps the `ops` record (data completeness), although
`nyc_agencies_export` ranks strictly higher in the declared priority
order. -/
theorem c2_counterexample_completeness_beats_priority :
    ApplyVerifiedMatches.getCell (dfPriority.rows.headI) "source"
      = some (Cell.vStr "nyc_agencies_export") ∧
    DataMerging.priorityIdx "nyc_agencies_export" < DataMerging.priorityIdx "ops" ∧
    recordIds (process_verified_matches dfPriority [entryPriority]).1
      = ["OPS_000001"] := by
  decide

/-- Claim C3, counterexample: normalization is not idempotent.
`global_normalize_name` maps `"mayors office"` to
`"office of the mayor"`, whose second normalization drops the stopword
`the`; and the preprocessing `standardize_name` maps `"n.y.c"` to
`"nyc"`, which a second pass expands to `"new york city"`. -/
theorem c3_counterexample_not_idempotent :
    Preprocessing.global_normalize_name
        (Preprocessing.global_normalize_name "mayors office")
      ≠ Preprocessing.global_normalize_name "mayors office" ∧
    Preprocessing.standardize_name (Preprocessing.standardize_name "n.y.c")
      ≠ Preprocessing.standardize_name "n.y.c" := by
  decide

/-- Claim C4: the spec requires the normalizer never to remove the token
`of`, but the stopword list of `src/data_normalization.py` contains
`of`: `"Department of Education"` (whose lowercased token list contains
`of`) normalizes to `"department education"`, which has no `of`
token. -/
theorem c4_legacy_normalizer_removes_of :
    DataNormalization.standardize_name "Department of Education"
      = "department education" ∧
    "of".data ∈ PyStr.pyWords (PyStr.pyLower "Department of Education".data) ∧
    ¬ "of".data ∈ PyStr.pyWords
        (DataNormalization.standardize_name "Department of Education").data := by
  decide

open ApplyVerifiedMatches ClaimInputs in
/-- Claim C7, counterexample: within one pass (one 50-entry batch) the
record `REC_000001` is consumed as a side of two distinct applied
merges — the engine de-duplicates only unordered id pairs, not record
ids. -/
theorem c7_counterexample_record_reused_in_pass :
    (process_verified_matches dfThree entriesShareRecord).2.2 =
      [[("REC_000001", "REC_000002"), ("REC_000001", "REC_000003")]] := by
  decide

open ApplyVerifiedMatches ClaimInputs in
/-- Claim C9, counterexample: for the field `merged_from` the merge
drops the secondary record's non-null value even though the preferred
record's value is null (the merge loop skips the metadata fields). -/
theorem c9_counterexample_metadata_field_dropped :
    getCell rowPrimaryNullMeta "merged_from" = none ∧
    getCell rowSecondaryWithMeta "merged_from"
      = some (Cell.vRefs [⟨"REC_000009", "old", 88⟩]) ∧
    getCell (merge_record_information rowPrimaryNullMeta rowSecondaryWithMeta)
        "merged_from" = none := by
  decide

/-- Claim C8: id repair can leave duplicate ids.  On the table with ids
`["REC_000000", "bad"]` the invalid `"bad"` is regenerated as
`REC_000000`, colliding with the existing valid id, and the duplicate
repair regenerates it as `REC_000000` again, so both rows end with the
same id. -/
theorem c8_repair_leaves_duplicate_ids :
    DataMerging.validRecordId "REC_000000" = true ∧
    DataMerging.ensure_record_ids "REC_" 2 (some ["REC_000000", "bad"])
      = ["REC_000000", "REC_000000"] ∧
    ¬ (DataMerging.ensure_record_ids "REC_" 2 (some ["REC_000000", "bad"])).Nodup := by
  decide

theorem lcsF_le_left : ∀ (f : ℕ) (a b : List Char), RapidFuzz.lcsF f a b ≤ a.length := by
  intro f
  induction f with
  | zero => intro a b; simp [RapidFuzz.lcsF]
  | succ f ih =>
    intro a b
    match a, b with
    | [], [] => simp [RapidFuzz.lcsF]
    | [], _ :: _ => simp [RapidFuzz.lcsF]
    | _ :: _, [] => simp [RapidFuzz.lcsF]
    | a :: as, b :: bs =>
      simp only [RapidFuzz.lcsF]
      split
      · have h := ih as bs
        simp only [List.length_cons]
        omega
      · have h1 := ih as (b :: bs)
        have h2 := ih (a :: as) bs
        simp only [List.length_cons] at h1 h2 ⊢
        omega

theorem lcsF_le_right : ∀ (f : ℕ) (a b : List Char), RapidFuzz.lcsF f a b ≤ b.length := by
  intro f
  induction f with
  | zero => intro a b; simp [RapidFuzz.lcsF]
  | succ f ih =>
    intro a b
    match a, b with
    | [], [] => simp [RapidFuzz.lcsF]
    | [], _ :: _ => simp [RapidFuzz.lcsF]
    | _ :: _, [] => simp [RapidFuzz.lcsF]
    | a :: as, b :: bs =>
      simp only [RapidFuzz.lcsF]
      split
      · have h := ih as bs
        simp only [List.length_cons]
        omega
      · have h1 := ih as (b :: bs)
        have h2 := ih (a :: as) bs
        simp only [List.length_cons] at h1 h2 ⊢
        omega

theorem two_lcsLen_le (a b : List Char) :
    2 * RapidFuzz.lcsLen a b ≤ a.length + b.length := by
  have h1 := lcsF_le_left (a.length + b.length) a b
  have h2 := lcsF_le_right (a.length + b.length) a b
  unfold RapidFuzz.lcsLen
  omega

theorem ratio_nonneg (a b : List Char) : 0 ≤ RapidFuzz.ratio a b := by
  unfold RapidFuzz.ratio
  split
  · norm_num
  · positivity

theorem ratio_le_100 (a b : List Char) : RapidFuzz.ratio a b ≤ 100 := by
  unfold RapidFuzz.ratio
  split
  · norm_num
  · rename_i h
    have hn : 0 < a.length + b.length := Nat.pos_of_ne_zero h
    have hpos : (0 : ℚ) < (a.length : ℚ) + (b.length : ℚ) := by
      have hq := (Nat.cast_pos (α := ℚ)).mpr hn
      push_cast at hq
      linarith
    rw [div_le_iff₀ hpos]
    have h2 := two_lcsLen_le a b
    have h2q : 2 * (RapidFuzz.lcsLen a b : ℚ) ≤ (a.length : ℚ) + (b.length : ℚ) := by
      have hq := (Nat.cast_le (α := ℚ)).mpr h2
      push_cast at hq
      linarith
    linarith

theorem token_sort_ratio_nonneg (a b : List Char) :
    0 ≤ RapidFuzz.token_sort_ratio a b := by
  unfold RapidFuzz.token_sort_ratio
  exact ratio_nonneg _ _

theorem token_sort_ratio_le_100 (a b : List Char) :
    RapidFuzz.token_sort_ratio a b ≤ 100 := by
  unfold RapidFuzz.token_sort_ratio
  exact ratio_le_100 _ _

/-- Claim C6, amended: the composite score equals
`min(100, 0.6 * edit_similarity + 0.4 * token_SORT_similarity + 5·org + 10·acr)`
(the token component sorts the tokens keeping duplicates — it is not a
token-set similarity), with both similarity components in [0, 100]. -/
theorem c6_amended_composite_score (s1 s2 : List Char) :
    EnhancedMatching.get_enhanced_score s1 s2 =
      min 100 (RapidFuzz.ratio s1 s2 * (0.6 : ℚ) +
        RapidFuzz.token_sort_ratio s1 s2 * (0.4 : ℚ) +
        (if EnhancedMatching.check_org_type_match s1 s2 then 5 else 0) +
        (if EnhancedMatching.check_acronym_match s1 s2 then 10 else 0)) ∧
    0 ≤ RapidFuzz.ratio s1 s2 ∧ RapidFuzz.ratio s1 s2 ≤ 100 ∧
    0 ≤ RapidFuzz.token_sort_ratio s1 s2 ∧
    RapidFuzz.token_sort_ratio s1 s2 ≤ 100 := by
  refine ⟨?_, ratio_nonneg s1 s2, ratio_le_100 s1 s2,
    token_sort_ratio_nonneg s1 s2, token_sort_ratio_le_100 s1 s2⟩
  unfold EnhancedMatching.get_enhanced_score
  by_cases ho : EnhancedMatching.check_org_type_match s1 s2 <;>
    by_cases ha : EnhancedMatching.check_acronym_match s1 s2 <;>
      simp [ho, ha]

/-- Claim C6, counterexample: at the pair `("a a b", "a b")` the code's
score (75, from `token_sort_ratio`) differs from the claimed formula
with a token-set similarity (85, since the token sets are equal). -/
theorem c6_counterexample_token_set_differs :
    EnhancedMatching.get_enhanced_score "a a b".data "a b".data = 75 ∧
    SpecModel.composite_score "a a b".data "a b".data = 85 := by
  have h1 : RapidFuzz.ratio "a a b".data "a b".data = 75 := by
    have hl : RapidFuzz.lcsLen "a a b".data "a b".data = 3 := by decide
    unfold RapidFuzz.ratio
    rw [hl, show "a a b".data.length = 5 from by decide,
      show "a b".data.length = 3 from by decide]
    norm_num
  have e1 : PyStr.joinSpace (PyStr.sortStrings (PyStr.pyWords "a a b".data))
      = "a a b".data := by decide
  have e2 : PyStr.joinSpace (PyStr.sortStrings (PyStr.pyWords "a b".data))
      = "a b".data := by decide
  have h2 : RapidFuzz.token_sort_ratio "a a b".data "a b".data = 75 := by
    unfold RapidFuzz.token_sort_ratio
    rw [e1, e2, h1]
  have u1 : PyStr.joinSpace (PyStr.sortStrings
      (PyStr.eraseDupsKeepFirst (PyStr.pyWords "a a b".data))) = "a b".data := by
    decide
  have u2 : PyStr.joinSpace (PyStr.sortStrings
      (PyStr.eraseDupsKeepFirst (PyStr.pyWords "a b".data))) = "a b".data := by
    decide
  have h3 : SpecModel.token_set_similarity "a a b".data "a b".data = 100 := by
    unfold SpecModel.token_set_similarity
    rw [u1, u2]
    have hl : RapidFuzz.lcsLen "a b".data "a b".data = 3 := by decide
    unfold RapidFuzz.ratio
    rw [hl, show "a b".data.length = 3 from by decide]
    norm_num
  have ho : EnhancedMatching.check_org_type_match "a a b".data "a b".data = false := by
    decide
  have ha : EnhancedMatching.check_acronym_match "a a b".data "a b".data = false := by
    decide
  constructor
  · unfold EnhancedMatching.get_enhanced_score
    rw [h1, h2, ho, ha]
    norm_num
  · unfold SpecModel.composite_score
    rw [h1, h3, ho, ha]
    norm_num

namespace ApplyVerifiedMatches

theorem process_match_apply_not_processed
    (rows : List Row) (rm : List (String × ℕ)) (processed : List Pair)
    (m : MatchRow) (pr : Pair) (k r : ℕ) (mg : Row)
    (h : process_match rows rm processed m = .apply pr k r mg) :
    pr ∉ processed := by
  rcases m with ⟨src, tgt, score, label, sid, tid⟩
  cases sid with
  | none => simp [process_match] at h
  | some s =>
    cases tid with
    | none => simp [process_match] at h
    | some t =>
      simp only [process_match] at h
      split at h
      · simp at h
      · split at h
        · simp at h
        · split at h
          · simp at h
          · rename_i hmem
            split at h
            · split at h
              · injection h with h1 h2
                rw [← h1]
                exact hmem
              · simp at h
            · simp at h

theorem run_matches_applied_sub (rows : List Row) (rm : List (String × ℕ))
    (processed : List Pair) :
    ∀ (ms : List MatchRow) (acc : BatchAcc) (p : Pair),
      p ∈ (run_matches rows rm processed ms acc).applied →
        p ∈ acc.applied ∨ p ∉ processed := by
  intro ms
  induction ms with
  | nil =>
    intro acc p h
    simp only [run_matches] at h
    exact Or.inl h
  | cons m ms ih =>
    intro acc p h
    simp only [run_matches] at h
    cases hpm : process_match rows rm processed m with
    | skip =>
      rw [hpm] at h
      exact ih acc p h
    | apply pr k r mg =>
      rw [hpm] at h
      rcases ih _ p h with h1 | h1
      · simp only [List.mem_append, List.mem_singleton] at h1
        rcases h1 with h2 | h2
        · exact Or.inl h2
        · rw [h2]
          exact Or.inr (process_match_apply_not_processed rows rm processed m pr k r mg hpm)
      · exact Or.inr h1

theorem run_batch_applied_not_processed (df : Df) (processed : List Pair)
    (b : List MatchRow) (p : Pair)
    (h : p ∈ (run_batch df processed b).2) : p ∉ processed := by
  unfold run_batch at h
  rcases run_matches_applied_sub df.rows (build_record_map df.rows) processed b
      ⟨[], [], []⟩ p h with h1 | h1
  · simp at h1
  · exact h1

theorem run_batches_applied_fresh :
    ∀ (bs : List (List MatchRow)) (df : Df) (processed : List Pair),
      (∀ l ∈ (run_batches df processed bs).2.2, ∀ p ∈ l, p ∉ processed) ∧
      (run_batches df processed bs).2.2.Pairwise
        (fun b1 b2 => ∀ p ∈ b1, p ∉ b2) := by
  intro bs
  induction bs with
  | nil =>
    intro df processed
    simp [run_batches]
  | cons b bs ih =>
    intro df processed
    simp only [run_batches]
    obtain ⟨ihFresh, ihPw⟩ :=
      ih (run_batch df processed b).1 (processed ++ (run_batch df processed b).2)
    constructor
    · intro l hl p hp
      rcases List.mem_cons.mp hl with h1 | h1
      · rw [h1] at hp
        exact run_batch_applied_not_processed df processed b p hp
      · intro hmem
        exact (ihFresh l h1 p hp) (List.mem_append_left _ hmem)
    · refine List.pairwise_cons.mpr ⟨?_, ihPw⟩
      intro l hl p hp hpl
      exact (ihFresh l hl p hpl) (List.mem_append_right _ hp)

end ApplyVerifiedMatches

/-- Claim C7, amended: the merge engine de-duplicates applied merges by
unordered id pair, batch against batch — an entry whose unordered id
pair was applied in an earlier batch of the pass is skipped, so no
unordered pair is applied in two different batches.  (A record id may
still be a side of several applied merges, and a pair duplicated inside
one 50-entry batch is applied twice; see the counterexample.) -/
theorem c7_amended_pair_guard (df : ApplyVerifiedMatches.Df)
    (ledger : List ApplyVerifiedMatches.MatchRow) :
    (ApplyVerifiedMatches.process_verified_matches df ledger).2.2.Pairwise
      (fun b1 b2 => ∀ p ∈ b1, p ∉ b2) := by
  unfold ApplyVerifiedMatches.process_verified_matches
  exact (ApplyVerifiedMatches.run_batches_applied_fresh _ _ _).2

namespace ApplyVerifiedMatches

theorem getCell_setCell_self (r : Row) (k : String) (v : Option Cell) :
    getCell (setCell r k v) k = v := by
  induction r with
  | nil => simp [setCell, getCell, List.find?]
  | cons p rest ih =>
    by_cases h : p.1 = k
    · simp [setCell, h, getCell, List.find?]
    · simp only [setCell, if_neg h]
      simp only [getCell, List.find?] at ih ⊢
      rw [show (decide (p.1 = k)) = false from by simp [h]]
      exact ih

theorem getCell_setCell_ne (r : Row) (k k' : String) (v : Option Cell)
    (h : k' ≠ k) : getCell (setCell r k v) k' = getCell r k' := by
  induction r with
  | nil => simp [setCell, getCell, List.find?, Ne.symm h]
  | cons p rest ih =>
    by_cases hp : p.1 = k
    · simp only [setCell, if_pos hp]
      simp only [getCell, List.find?]
      rw [show (decide (k = k')) = false from by simp [Ne.symm h],
        show (decide (p.1 = k')) = false from by rw [hp]; simp [Ne.symm h]]
    · simp only [setCell, if_neg hp]
      simp only [getCell, List.find?] at ih ⊢
      by_cases hk' : p.1 = k'
      · simp [hk']
      · rw [show (decide (p.1 = k')) = false from by simp [hk']]
        exact ih

theorem getCell_mem_keys {s : Row} {col : String} {v : Cell}
    (h : getCell s col = some v) : col ∈ s.map Prod.fst := by
  unfold getCell at h
  cases hf : s.find? (fun p => p.1 = col) with
  | none => rw [hf] at h; simp at h
  | some pr =>
    have hmem := List.mem_of_find?_eq_some hf
    have hkey := List.find?_some hf
    simp only [decide_eq_true_eq] at hkey
    rw [← hkey]
    exact List.mem_map_of_mem Prod.fst hmem

theorem mem_unionKeys_of_sec {p s : Row} {col : String} {v : Cell}
    (h : getCell s col = some v) : col ∈ unionKeys p s := by
  unfold unionKeys
  by_cases hp : col ∈ p.map Prod.fst
  · exact List.mem_append_left _ hp
  · refine List.mem_append_right _ ?_
    refine List.mem_filter.mpr ⟨getCell_mem_keys h, ?_⟩
    simp [List.contains, List.elem_iff, hp]

theorem getCell_reindexTo (cols : List String) (r : Row) (col : String)
    (h : col ∈ cols) : getCell (reindexTo cols r) col = getCell r col := by
  induction cols with
  | nil => simp at h
  | cons c rest ih =>
    by_cases hc : c = col
    · simp [reindexTo, getCell, List.find?, hc]
    · simp only [reindexTo, List.map_cons]
      simp only [getCell, List.find?]
      rw [show (decide (c = col)) = false from by simp [hc]]
      have hcol : col ∈ rest := by
        rcases List.mem_cons.mp h with h1 | h1
        · exact absurd h1.symm hc
        · exact h1
      exact ih hcol

theorem hasKey_reindexTo (cols : List String) (r : Row) (col : String)
    (h : col ∈ cols) : hasKey (reindexTo cols r) col = true := by
  unfold hasKey reindexTo
  simp only [List.any_eq_true]
  exact ⟨(col, getCell r col), List.mem_map_of_mem _ h, by simp⟩

/-- Any branch of the source-name fold step only writes the current
field, so other columns are untouched. -/
theorem sourceStep_getCell_ne (s' m : Row) (field col : String)
    (h : col ≠ field) :
    getCell (if hasKey s' field ∧ (getCell s' field).isSome then
      if ¬ hasKey m field ∨ getCell m field = none then
        setCell m field (getCell s' field)
      else if ¬ (getCell m field = getCell s' field) then
        setCell m field (some (Cell.vStr
          (getStrOr m field "" ++ "|" ++ getStrOr s' field "")))
      else m
    else m) col = getCell m col := by
  split
  · split
    · exact getCell_setCell_ne m field col _ h
    · split
      · exact getCell_setCell_ne m field col _ h
      · rfl
  · rfl

theorem mergeSourceNames_notin (s' : Row) (fl : List String) (m : Row)
    (col : String) (h : col ∉ fl) :
    getCell (fl.foldl (fun m field =>
      if hasKey s' field ∧ (getCell s' field).isSome then
        if ¬ hasKey m field ∨ getCell m field = none then
          setCell m field (getCell s' field)
        else if ¬ (getCell m field = getCell s' field) then
          setCell m field (some (Cell.vStr
            (getStrOr m field "" ++ "|" ++ getStrOr s' field "")))
        else m
      else m) m) col = getCell m col := by
  induction fl generalizing m with
  | nil => rfl
  | cons f rest ih =>
    have hcf : col ≠ f := fun hcontra => h (hcontra ▸ List.mem_cons_self f rest)
    have hrest : col ∉ rest := fun hcontra => h (List.mem_cons_of_mem f hcontra)
    simp only [List.foldl_cons]
    rw [ih _ hrest]
    exact sourceStep_getCell_ne s' m f col hcf

theorem mergeSourceNames_sets (s' : Row) (fl : List String) (m : Row)
    (col : String) (v : Cell) (hnd : fl.Nodup) (hin : col ∈ fl)
    (hs : getCell s' col = some v) (hk : hasKey s' col = true)
    (hm : getCell m col = none) :
    getCell (fl.foldl (fun m field =>
      if hasKey s' field ∧ (getCell s' field).isSome then
        if ¬ hasKey m field ∨ getCell m field = none then
          setCell m field (getCell s' field)
        else if ¬ (getCell m field = getCell s' field) then
          setCell m field (some (Cell.vStr
            (getStrOr m field "" ++ "|" ++ getStrOr s' field "")))
        else m
      else m) m) col = some v := by
  induction fl generalizing m with
  | nil => simp at hin
  | cons f rest ih =>
    simp only [List.foldl_cons]
    by_cases hcf : col = f
    · subst hcf
      have hstep : (if hasKey s' col ∧ (getCell s' col).isSome then
          if ¬ hasKey m col ∨ getCell m col = none then
            setCell m col (getCell s' col)
          else if ¬ (getCell m col = getCell s' col) then
            setCell m col (some (Cell.vStr
              (getStrOr m col "" ++ "|" ++ getStrOr s' col "")))
          else m
        else m) = setCell m col (getCell s' col) := by
        rw [if_pos ⟨hk, by rw [hs]; rfl⟩, if_pos (Or.inr hm)]
      rw [hstep]
      have hnotin : col ∉ rest := by
        have := List.nodup_cons.mp hnd
        exact this.1
      rw [mergeSourceNames_notin s' rest _ col hnotin]
      rw [getCell_setCell_self, hs]
    · have hrest : col ∈ rest := by
        rcases List.mem_cons.mp hin with h1 | h1
        · exact absurd h1 hcf
        · exact h1
      have hnd' := (List.nodup_cons.mp hnd).2
      have hm' : getCell (if hasKey s' f ∧ (getCell s' f).isSome then
          if ¬ hasKey m f ∨ getCell m f = none then
            setCell m f (getCell s' f)
          else if ¬ (getCell m f = getCell s' f) then
            setCell m f (some (Cell.vStr
              (getStrOr m f "" ++ "|" ++ getStrOr s' f "")))
          else m
        else m) col = none := by
        rw [sourceStep_getCell_ne s' m f col hcf]
        exact hm
      exact ih _ hnd' hrest hm'

theorem mergeOtherStep_ne (s' : Row) (acc : Row × List String)
    (c col : String) (h : col ≠ c) :
    getCell (mergeOtherStep s' acc c).1 col = getCell acc.1 col := by
  unfold mergeOtherStep
  split
  · rfl
  · split
    · rename_i heq
      simp only
      exact getCell_setCell_ne acc.1 c col _ h
    · split
      · rfl
      · rfl
    · rfl

theorem foldOther_sets (s' : Row) (col : String) (v : Cell)
    (hc1 : col ≠ "merged_from") (hc2 : col ≠ "merge_note")
    (hs : getCell s' col = some v) :
    ∀ (cols : List String) (acc : Row × List String),
      (getCell acc.1 col = none ∨ getCell acc.1 col = some v) →
      (col ∈ cols ∨ getCell acc.1 col = some v) →
      getCell (cols.foldl (mergeOtherStep s') acc).1 col = some v := by
  intro cols
  induction cols with
  | nil =>
    intro acc hacc hready
    rcases hready with h1 | h1
    · simp at h1
    · exact h1
  | cons c rest ih =>
    intro acc hacc hready
    simp only [List.foldl_cons]
    by_cases hcc : col = c
    · subst hcc
      have hstep : getCell (mergeOtherStep s' acc col).1 col = some v := by
        unfold mergeOtherStep
        rw [if_neg (by push_neg; exact ⟨hc1, hc2⟩)]
        rcases hacc with h1 | h1
        · rw [h1, hs]
          simp only
          rw [getCell_setCell_self]
        · rw [h1, hs]
          simpa using h1
      exact ih _ (Or.inr hstep) (Or.inr hstep)
    · have hstep := mergeOtherStep_ne s' acc c col hcc
      rcases hready with h1 | h1
      · have hr : col ∈ rest := by
          rcases List.mem_cons.mp h1 with h2 | h2
          · exact absurd h2 hcc
          · exact h2
        exact ih _ (by rw [hstep]; exact hacc) (Or.inl hr)
      · exact ih _ (by rw [hstep]; exact hacc) (Or.inr (by rw [hstep]; exact h1))

end ApplyVerifiedMatches

/-- Claim C9, amended: no silent data loss holds for every field except
the merge-metadata fields `merged_from`, `merge_note` and the temporary
`merge_conflicts` marker: if the preferred record's value is null and
the secondary holds a value, the merged record holds the secondary's
value. -/
theorem c9_amended_no_silent_data_loss
    (p s : ApplyVerifiedMatches.Row) (col : String)
    (v : ApplyVerifiedMatches.Cell)
    (hc1 : col ≠ "merged_from") (hc2 : col ≠ "merge_note")
    (hc3 : col ≠ "merge_conflicts")
    (hp : ApplyVerifiedMatches.getCell p col = none)
    (hs : ApplyVerifiedMatches.getCell s col = some v) :
    ApplyVerifiedMatches.getCell
      (ApplyVerifiedMatches.merge_record_information p s) col = some v := by
  open ApplyVerifiedMatches in
  unfold ApplyVerifiedMatches.merge_record_information
  have hmemU : col ∈ ApplyVerifiedMatches.unionKeys p s :=
    ApplyVerifiedMatches.mem_unionKeys_of_sec hs
  have hs' : ApplyVerifiedMatches.getCell
      (ApplyVerifiedMatches.reindexTo (ApplyVerifiedMatches.unionKeys p s) s) col
      = some v := by
    rw [ApplyVerifiedMatches.getCell_reindexTo _ _ _ hmemU]
    exact hs
  have hp' : ApplyVerifiedMatches.getCell
      (ApplyVerifiedMatches.reindexTo (ApplyVerifiedMatches.unionKeys p s) p) col
      = none := by
    rw [ApplyVerifiedMatches.getCell_reindexTo _ _ _ hmemU]
    exact hp
  have hk : ApplyVerifiedMatches.hasKey
      (ApplyVerifiedMatches.reindexTo (ApplyVerifiedMatches.unionKeys p s) s) col
      = true := ApplyVerifiedMatches.hasKey_reindexTo _ _ _ hmemU
  have hm1 : ApplyVerifiedMatches.getCell
      (ApplyVerifiedMatches.mergeSourceNames
        (ApplyVerifiedMatches.reindexTo (ApplyVerifiedMatches.unionKeys p s) s)
        (ApplyVerifiedMatches.reindexTo (ApplyVerifiedMatches.unionKeys p s) p)) col
      = none ∨
      ApplyVerifiedMatches.getCell
      (ApplyVerifiedMatches.mergeSourceNames
        (ApplyVerifiedMatches.reindexTo (ApplyVerifiedMatches.unionKeys p s) s)
        (ApplyVerifiedMatches.reindexTo (ApplyVerifiedMatches.unionKeys p s) p)) col
      = some v := by
    unfold ApplyVerifiedMatches.mergeSourceNames
    by_cases hin : col ∈ ApplyVerifiedMatches.sourceNameFields
    · right
      exact ApplyVerifiedMatches.mergeSourceNames_sets _ _ _ col v
        (by unfold ApplyVerifiedMatches.sourceNameFields; decide) hin hs' hk hp'
    · left
      rw [ApplyVerifiedMatches.mergeSourceNames_notin _ _ _ col hin]
      exact hp'
  have hfold : ApplyVerifiedMatches.getCell
      ((ApplyVerifiedMatches.unionKeys p s).foldl
        (ApplyVerifiedMatches.mergeOtherStep
          (ApplyVerifiedMatches.reindexTo (ApplyVerifiedMatches.unionKeys p s) s))
        (ApplyVerifiedMatches.mergeSourceNames
          (ApplyVerifiedMatches.reindexTo (ApplyVerifiedMatches.unionKeys p s) s)
          (ApplyVerifiedMatches.reindexTo (ApplyVerifiedMatches.unionKeys p s) p), [])).1
      col = some v := by
    exact ApplyVerifiedMatches.foldOther_sets _ col v hc1 hc2 hs' _ _ hm1 (Or.inl hmemU)
  simp only
  split
  · rw [ApplyVerifiedMatches.getCell_setCell_ne _ _ _ _ hc3]
    exact hfold
  · exact hfold

open ApplyVerifiedMatches in
/-- Claim C9, witness: a concrete merge where the preferred record's
`URL` is null and the secondary's is not; the merged record holds the
secondary's value. -/
theorem c9_witness :
    getCell [("URL", (none : Option Cell))] "URL" = none ∧
    getCell (merge_record_information
        [("URL", (none : Option Cell))]
        [("URL", some (Cell.vStr "http://a"))]) "URL"
      = some (Cell.vStr "http://a") :=
  ⟨by decide,
   c9_amended_no_silent_data_loss
     [("URL", none)] [("URL", some (Cell.vStr "http://a"))] "URL"
     (Cell.vStr "http://a")
     (by decide) (by decide) (by decide) (by decide) (by decide)⟩

theorem find?_indexOf_le {α : Type} [DecidableEq α] :
    ∀ (l : List α) (p : α → Bool) (s x : α),
      l.find? p = some s → x ∈ l → p x = true →
      l.indexOf s ≤ l.indexOf x := by
  intro l
  induction l with
  | nil => intro p s x h; simp at h
  | cons a rest ih =>
    intro p s x hf hx hpx
    by_cases hpa : p a
    · have hs : s = a := by
        rw [List.find?_cons_of_pos _ hpa] at hf
        exact (Option.some_inj.mp hf).symm
      rw [hs, List.indexOf_cons_self]
      exact Nat.zero_le _
    · rw [List.find?_cons_of_neg _ hpa] at hf
      have hsa : s ≠ a := by
        intro hcontra
        have := List.find?_some hf
        rw [hcontra] at this
        rw [this] at hpa
        exact hpa rfl
      have hxa : x ≠ a := by
        intro hcontra
        rw [hcontra] at hpx
        rw [hpx] at hpa
        exact hpa rfl
      have hxr : x ∈ rest := by
        rcases List.mem_cons.mp hx with h1 | h1
        · exact absurd h1 hxa
        · exact h1
      rw [List.indexOf_cons_ne _ (Ne.symm hsa), List.indexOf_cons_ne _ (Ne.symm hxa)]
      exact Nat.succ_le_succ (ih p s x hf hxr hpx)

theorem preferredSource_found (g : DataMerging.DedupRecord)
    (gs : List DataMerging.DedupRecord)
    (hall : ∀ r ∈ g :: gs, r.source ∈ DataMerging.source_order) :
    DataMerging.source_order.find?
      (fun s => (g :: gs).any (fun r => r.source = s)) ≠ none := by
  intro hnone
  have hg := hall g (List.mem_cons_self g gs)
  have := List.find?_eq_none.mp hnone g.source hg
  simp only [List.any_eq_true, decide_eq_true_eq] at this
  exact this ⟨g, List.mem_cons_self g gs, rfl⟩

/-- Claim C2, amended: survivor selection by source priority holds for
the duplicate-group merges of `deduplicate_merged_data` (the kept
record's source has minimal priority index among the group), while the
verified-match merge engine instead keeps the record with the larger
count of populated fields (the removed record is never more complete
than the kept one). -/
theorem c2_amended_survivor_rules :
    (∀ (group : List DataMerging.DedupRecord) (k : DataMerging.DedupRecord),
      (∀ r ∈ group, r.source ∈ DataMerging.source_order) →
      DataMerging.keep_record group = some k →
      ∀ r ∈ group,
        DataMerging.priorityIdx k.source ≤ DataMerging.priorityIdx r.source) ∧
    (∀ (rows : List ApplyVerifiedMatches.Row)
        (rm : List (String × ℕ)) (processed : List ApplyVerifiedMatches.Pair)
        (m : ApplyVerifiedMatches.MatchRow) (pr : ApplyVerifiedMatches.Pair)
        (k ri : ℕ) (mg : ApplyVerifiedMatches.Row),
      ApplyVerifiedMatches.process_match rows rm processed m
        = .apply pr k ri mg →
      ∃ kRec rRec, rows.get? k = some kRec ∧ rows.get? ri = some rRec ∧
        ApplyVerifiedMatches.countNotNa rRec
          ≤ ApplyVerifiedMatches.countNotNa kRec) := by
  constructor
  · intro group k hall hkeep r hr
    match group, hkeep with
    | g :: gs, hkeep =>
      have hks : k.source = DataMerging.preferredSource (g :: gs) := by
        have := List.find?_some hkeep
        simpa using this
      have hunfold : DataMerging.preferredSource (g :: gs) =
          match DataMerging.source_order.find?
            (fun s => (g :: gs).any (fun r => r.source = s)) with
          | some s => s
          | none => g.source := rfl
      cases hfind : DataMerging.source_order.find?
          (fun s => (g :: gs).any (fun r => r.source = s)) with
      | none => exact absurd hfind (preferredSource_found g gs hall)
      | some s =>
        rw [hunfold, hfind] at hks
        unfold DataMerging.priorityIdx
        rw [hks]
        exact find?_indexOf_le DataMerging.source_order _ s r.source hfind
          (hall r hr)
          (by simp only [List.any_eq_true, decide_eq_true_eq]; exact ⟨r, hr, rfl⟩)
  · intro rows rm processed m pr k ri mg h
    rcases m with ⟨src, tgt, score, label, sid, tid⟩
    cases sid with
    | none => simp [ApplyVerifiedMatches.process_match] at h
    | some s =>
      cases tid with
      | none => simp [ApplyVerifiedMatches.process_match] at h
      | some t =>
        simp only [ApplyVerifiedMatches.process_match] at h
        split at h
        · simp at h
        · split at h
          · simp at h
          · split at h
            · simp at h
            · split at h
              · split at h
                · rename_i si ti hsi hti sRec tRec hsRec htRec
                  split at h
                  · rename_i hcmp
                    simp only at h
                    injection h with hpr hk hri hmg
                    rw [← hk, ← hri]
                    exact ⟨sRec, tRec, hsRec, htRec, hcmp⟩
                  · rename_i hcmp
                    simp only at h
                    injection h with hpr hk hri hmg
                    rw [← hk, ← hri]
                    exact ⟨tRec, sRec, htRec, hsRec,
                      Nat.le_of_lt (Nat.lt_of_not_le hcmp)⟩
                · simp at h
              · simp at h

/-- Claim C2, witness: a concrete duplicate group with an `ops` record
and a `nyc_agencies_export` record; the kept record is the
`nyc_agencies_export` one and its priority index is minimal. -/
theorem c2_witness :
    DataMerging.keep_record
        [⟨"OPS_000001", "ops"⟩, ⟨"REC_000001", "nyc_agencies_export"⟩]
      = some ⟨"REC_000001", "nyc_agencies_export"⟩ ∧
    (∀ r ∈ ([⟨"OPS_000001", "ops"⟩,
        ⟨"REC_000001", "nyc_agencies_export"⟩] :
          List DataMerging.DedupRecord),
      DataMerging.priorityIdx
          (DataMerging.DedupRecord.source ⟨"REC_000001", "nyc_agencies_export"⟩)
        ≤ DataMerging.priorityIdx r.source) :=
  ⟨by decide,
   c2_amended_survivor_rules.1
     [⟨"OPS_000001", "ops"⟩, ⟨"REC_000001", "nyc_agencies_export"⟩]
     ⟨"REC_000001", "nyc_agencies_export"⟩
     (by decide) (by decide)⟩

namespace PyStr

theorem charListLe_total : ∀ a b : List Char,
    charListLe a b = true ∨ charListLe b a = true := by
  intro a
  induction a with
  | nil => intro b; left; rfl
  | cons x xs ih =>
    intro b
    cases b with
    | nil => right; rfl
    | cons y ys =>
      simp only [charListLe]
      by_cases h1 : x.toNat < y.toNat
      · left; simp [h1]
      · by_cases h2 : y.toNat < x.toNat
        · right; simp [h2, h1]
        · rcases ih ys with h | h
          · left; simp [h1, h2, h]
          · right; simp [h1, h2, h]

theorem charListLe_antisymm : ∀ a b : List Char,
    charListLe a b = true → charListLe b a = true → a = b := by
  intro a
  induction a with
  | nil =>
    intro b h1 h2
    cases b with
    | nil => rfl
    | cons y ys => simp [charListLe] at h2
  | cons x xs ih =>
    intro b h1 h2
    cases b with
    | nil => simp [charListLe] at h1
    | cons y ys =>
      simp only [charListLe] at h1 h2
      by_cases hxy : x.toNat < y.toNat
      · rw [if_pos hxy] at h1
        rw [if_neg (Nat.lt_asymm hxy), if_pos hxy] at h2
        exact absurd h2 (by simp)
      · by_cases hyx : y.toNat < x.toNat
        · rw [if_neg hxy, if_pos hyx] at h1
          exact absurd h1 (by simp)
        · rw [if_neg hxy, if_neg hyx] at h1
          rw [if_neg hyx, if_neg hxy] at h2
          have hnat : x.toNat = y.toNat :=
            Nat.le_antisymm (Nat.le_of_not_lt hyx) (Nat.le_of_not_lt hxy)
          have hx : x = y :=
            Char.eq_of_val_eq (UInt32.eq_of_toBitVec_eq (BitVec.eq_of_toNat_eq hnat))
          rw [hx, ih ys h1 h2]

end PyStr

namespace ApplyVerifiedMatches

theorem sortPair_comm (a b : String) : sortPair a b = sortPair b a := by
  unfold sortPair
  by_cases h1 : PyStr.charListLe a.data b.data = true
  · by_cases h2 : PyStr.charListLe b.data a.data = true
    · have : a.data = b.data := PyStr.charListLe_antisymm _ _ h1 h2
      have hab : a = b := by
        cases a; cases b; simp_all
      rw [hab]
    · simp [h1, h2]
  · have h2 : PyStr.charListLe b.data a.data = true := by
      rcases PyStr.charListLe_total a.data b.data with h | h
      · exact absurd h h1
      · exact h
    simp [h1, h2]

theorem sortPair_cases (a b : String) :
    sortPair a b = (a, b) ∨ sortPair a b = (b, a) := by
  unfold sortPair
  split
  · left; rfl
  · right; rfl

theorem sortPair_eq_iff (x y u v : String)
    (h : sortPair x y = sortPair u v) :
    (x = u ∧ y = v) ∨ (x = v ∧ y = u) := by
  rcases sortPair_cases x y with h1 | h1 <;>
    rcases sortPair_cases u v with h2 | h2 <;>
      rw [h1, h2] at h <;> injection h with ha hb
  · left; exact ⟨ha, hb⟩
  · right; exact ⟨ha, hb⟩
  · right; exact ⟨hb, ha⟩
  · left; exact ⟨hb, ha⟩

end ApplyVerifiedMatches

namespace GenerateMatches

open PyStr
open ApplyVerifiedMatches (Pair sortPair sortPair_comm sortPair_eq_iff)

theorem mem_allPairs : ∀ (l : List String) (p : Pair),
    p ∈ allPairs l → p.1 ∈ l ∧ p.2 ∈ l := by
  intro l
  induction l with
  | nil => intro p hp; simp [allPairs] at hp
  | cons n rest ih =>
    intro p hp
    simp only [allPairs, List.mem_append, List.mem_map] at hp
    rcases hp with ⟨m, hm, hpm⟩ | hp
    · rw [← hpm]
      exact ⟨List.mem_cons_self n rest, List.mem_cons_of_mem n hm⟩
    · have h := ih p hp
      exact ⟨List.mem_cons_of_mem n h.1, List.mem_cons_of_mem n h.2⟩

theorem nodup_eraseDups {α : Type} [DecidableEq α] :
    ∀ l : List α, (PyStr.eraseDupsKeepFirst l).Nodup := by
  intro l
  induction l with
  | nil => simp [PyStr.eraseDupsKeepFirst]
  | cons x xs ih =>
    simp only [PyStr.eraseDupsKeepFirst]
    refine List.nodup_cons.mpr ⟨?_, List.Nodup.filter _ ih⟩
    intro hx
    have h := List.mem_filter.mp hx
    simp at h

theorem allPairs_pairwise (l : List String) (h : l.Nodup) :
    (allPairs l).Pairwise (fun p q : Pair =>
      sortPair p.1 p.2 ≠ sortPair q.1 q.2) := by
  induction l with
  | nil => simp [allPairs]
  | cons n rest ih =>
    obtain ⟨hn, hrest⟩ := List.nodup_cons.mp h
    simp only [allPairs]
    rw [List.pairwise_append]
    refine ⟨?_, ih hrest, ?_⟩
    · rw [List.pairwise_map]
      refine List.Pairwise.imp_of_mem ?_ hrest
      intro m1 m2 h1 h2 hne heq
      rcases sortPair_eq_iff n m1 n m2 heq with ⟨_, h4⟩ | ⟨h3, _⟩
      · exact hne h4
      · exact hn (h3 ▸ h2)
    · intro p hp q hq heq
      simp only [List.mem_map] at hp
      obtain ⟨m, hm, hpm⟩ := hp
      have hq12 := mem_allPairs rest q hq
      rw [← hpm] at heq
      rcases sortPair_eq_iff n m q.1 q.2 heq with ⟨h3, _⟩ | ⟨h3, _⟩
      · exact hn (h3 ▸ hq12.1)
      · exact hn (h3 ▸ hq12.2)

theorem candidateFor_some {records : List GenRecord} {ex : List Pair}
    {p : Pair} {e : LedgerEntry}
    (h : candidateFor records ex p = some e) :
    e.Source = p.1 ∧ e.Target = p.2 ∧ sortPair p.1 p.2 ∉ ex := by
  unfold candidateFor at h
  by_cases hc : sortPair p.1 p.2 ∈ ex
  · rw [if_pos hc] at h
    exact absurd h (by simp)
  · rw [if_neg hc] at h
    dsimp only at h
    split at h
    · injection h with he
      rw [← he]
      exact ⟨rfl, rfl, hc⟩
    · exact absurd h (by simp)

theorem generate_mem {records : List GenRecord} {ex : List Pair}
    {e : LedgerEntry} (h : e ∈ generate_potential_matches records ex) :
    sortPair e.Source e.Target ∉ ex := by
  unfold generate_potential_matches at h
  obtain ⟨p, _, hfe⟩ := List.mem_filterMap.mp h
  obtain ⟨h1, h2, h3⟩ := candidateFor_some hfe
  rw [h1, h2]
  exact h3

theorem generate_pairwise (records : List GenRecord) (ex : List Pair) :
    (generate_potential_matches records ex).Pairwise
      (fun e1 e2 => sortPair e1.Source e1.Target ≠ sortPair e2.Source e2.Target) := by
  unfold generate_potential_matches
  rw [List.pairwise_filterMap]
  refine List.Pairwise.imp ?_
    (allPairs_pairwise _ (nodup_eraseDups (records.map GenRecord.NameNormalized)))
  intro p q hne e1 he1 e2 he2
  obtain ⟨hs1, ht1, _⟩ := candidateFor_some he1
  obtain ⟨hs2, ht2, _⟩ := candidateFor_some he2
  rw [hs1, ht1, hs2, ht2]
  exact hne

theorem dropDup_id : ∀ (l : List LedgerEntry) (seen : List Pair),
    l.Pairwise (fun e1 e2 => (e1.Source, e1.Target) ≠ (e2.Source, e2.Target)) →
    (∀ e ∈ l, (e.Source, e.Target) ∉ seen) →
    dropDupSourceTarget seen l = l := by
  intro l
  induction l with
  | nil => intro seen _ _; rfl
  | cons e rest ih =>
    intro seen hpw hseen
    simp only [dropDupSourceTarget]
    rw [if_neg (hseen e (List.mem_cons_self e rest))]
    congr 1
    refine ih _ (List.pairwise_cons.mp hpw).2 ?_
    intro f hf hmem
    rcases List.mem_cons.mp hmem with h1 | h1
    · exact (List.pairwise_cons.mp hpw).1 f hf h1.symm
    · exact hseen f (List.mem_cons_of_mem e hf) h1

theorem perm_insertEntryDesc (e : LedgerEntry) :
    ∀ l, List.Perm (insertEntryDesc e l) (e :: l) := by
  intro l
  induction l with
  | nil => exact List.Perm.refl _
  | cons x xs ih =>
    simp only [insertEntryDesc]
    split
    · exact List.Perm.refl _
    · exact (List.Perm.cons x ih).trans (List.Perm.swap e x xs)

theorem perm_sortEntriesDesc : ∀ l, List.Perm (sortEntriesDesc l) l := by
  intro l
  induction l with
  | nil => exact List.Perm.refl _
  | cons x xs ih =>
    simp only [sortEntriesDesc, List.foldr_cons]
    exact (perm_insertEntryDesc x _).trans (List.Perm.cons x ih)

theorem matches_iff_upair (e : LedgerEntry) (a b : String) :
    ((e.Source = a ∧ e.Target = b) ∨ (e.Source = b ∧ e.Target = a)) ↔
      sortPair e.Source e.Target = sortPair a b := by
  constructor
  · rintro (⟨h1, h2⟩ | ⟨h1, h2⟩)
    · rw [h1, h2]
    · rw [h1, h2]
      exact sortPair_comm b a
  · intro h
    rcases sortPair_eq_iff e.Source e.Target a b h with ⟨h1, h2⟩ | ⟨h1, h2⟩
    · exact Or.inl ⟨h1, h2⟩
    · exact Or.inr ⟨h1, h2⟩

theorem pairCount_upair (l : List LedgerEntry) (a b : String) :
    pairCount l a b =
      (l.filter (fun e =>
        sortPair e.Source e.Target = sortPair a b)).length := by
  unfold pairCount
  congr 1
  apply List.filter_congr
  intro e _
  exact decide_eq_decide.mpr (matches_iff_upair e a b)

theorem pairCount_perm {l1 l2 : List LedgerEntry} (h : List.Perm l1 l2)
    (a b : String) : pairCount l1 a b = pairCount l2 a b := by
  unfold pairCount
  exact (h.filter _).length_eq

theorem pairCount_append (l1 l2 : List LedgerEntry) (a b : String) :
    pairCount (l1 ++ l2) a b = pairCount l1 a b + pairCount l2 a b := by
  unfold pairCount
  rw [List.filter_append, List.length_append]

theorem pairCount_pos_exists {l : List LedgerEntry} {a b : String}
    (h : 0 < pairCount l a b) :
    ∃ e ∈ l, sortPair e.Source e.Target = sortPair a b := by
  rw [pairCount_upair] at h
  obtain ⟨e, he⟩ := List.exists_mem_of_length_pos h
  have h2 := List.mem_filter.mp he
  exact ⟨e, h2.1, by simpa using h2.2⟩

theorem pairCount_eq_zero {l : List LedgerEntry} {a b : String}
    (h : ∀ e ∈ l, sortPair e.Source e.Target ≠ sortPair a b) :
    pairCount l a b = 0 := by
  rw [pairCount_upair, List.length_eq_zero, List.filter_eq_nil_iff]
  intro e he
  simpa using h e he

end GenerateMatches

open GenerateMatches in
/-- Claim C5: the Match Ledger never holds two entries for the same
unordered name pair.  A candidate-generation run against a ledger
satisfying the invariant preserves it (generation checks both orderings
via the sorted pair, and `save_matches` de-duplicates), and a pair
already present exactly once is present exactly once afterwards —
re-inserting it as `(A,B)` or `(B,A)` cannot create a second entry. -/
theorem c5_ledger_unordered_unique
    (ledger : List LedgerEntry) (records : List GenRecord)
    (h : unorderedUnique ledger) :
    unorderedUnique (run_generation ledger records) ∧
    ∀ a b, pairCount ledger a b = 1 →
      pairCount (run_generation ledger records) a b = 1 := by
  classical
  have hsym : ∀ {e1 e2 : LedgerEntry},
      (fun e1 e2 : LedgerEntry =>
        ApplyVerifiedMatches.sortPair e1.Source e1.Target ≠
          ApplyVerifiedMatches.sortPair e2.Source e2.Target) e1 e2 →
      (fun e1 e2 : LedgerEntry =>
        ApplyVerifiedMatches.sortPair e1.Source e1.Target ≠
          ApplyVerifiedMatches.sortPair e2.Source e2.Target) e2 e1 :=
    fun h12 => Ne.symm h12
  set ex := ledger.map (fun e => ApplyVerifiedMatches.sortPair e.Source e.Target)
    with hex
  set newM := generate_potential_matches records ex with hnew
  have hfresh : ∀ e ∈ newM, ApplyVerifiedMatches.sortPair e.Source e.Target ∉ ex :=
    fun e he => generate_mem (hnew ▸ he)
  have hpwNew : newM.Pairwise (fun e1 e2 =>
      ApplyVerifiedMatches.sortPair e1.Source e1.Target ≠
        ApplyVerifiedMatches.sortPair e2.Source e2.Target) := by
    rw [hnew]
    exact generate_pairwise records ex
  have hpermS : List.Perm (sortEntriesDesc newM) newM := perm_sortEntriesDesc newM
  -- the concatenated list has pairwise-distinct unordered pairs
  have hpwApp : (ledger ++ sortEntriesDesc newM).Pairwise (fun e1 e2 =>
      ApplyVerifiedMatches.sortPair e1.Source e1.Target ≠
        ApplyVerifiedMatches.sortPair e2.Source e2.Target) := by
    rw [List.pairwise_append]
    refine ⟨h, ?_, ?_⟩
    · exact ((hpermS.pairwise_iff hsym).mpr hpwNew)
    · intro e1 he1 e2 he2 heq
      have he2' : e2 ∈ newM := hpermS.mem_iff.mp he2
      refine hfresh e2 he2' ?_
      rw [hex, ← heq]
      exact List.mem_map_of_mem _ he1
  -- distinct unordered pairs give distinct ordered pairs
  have hpwOrd : (ledger ++ sortEntriesDesc newM).Pairwise (fun e1 e2 =>
      (e1.Source, e1.Target) ≠ (e2.Source, e2.Target)) := by
    refine hpwApp.imp ?_
    intro e1 e2 hne hord
    refine hne ?_
    have h1 : e1.Source = e2.Source := congrArg Prod.fst hord
    have h2 : e1.Target = e2.Target := congrArg Prod.snd hord
    rw [h1, h2]
  have hdrop : dropDupSourceTarget [] (ledger ++ sortEntriesDesc newM)
      = ledger ++ sortEntriesDesc newM := by
    refine dropDup_id _ _ hpwOrd ?_
    intro e _
    simp
  have hrun : run_generation ledger records
      = sortEntriesDesc (ledger ++ sortEntriesDesc newM) := by
    unfold run_generation save_matches
    dsimp only
    rw [← hex, ← hnew, hdrop]
  have hpermRun : List.Perm (run_generation ledger records)
      (ledger ++ sortEntriesDesc newM) := by
    rw [hrun]
    exact perm_sortEntriesDesc _
  constructor
  · unfold unorderedUnique
    exact (hpermRun.pairwise_iff hsym).mpr hpwApp
  · intro a b hcount
    rw [pairCount_perm hpermRun a b, pairCount_append]
    have hnewZero : pairCount (sortEntriesDesc newM) a b = 0 := by
      rw [pairCount_perm hpermS a b]
      refine pairCount_eq_zero ?_
      intro e he heq
      obtain ⟨f, hf, hfeq⟩ := pairCount_pos_exists (l := ledger) (a := a) (b := b)
        (by rw [hcount]; norm_num)
      refine hfresh e he ?_
      rw [hex, heq, ← hfeq]
      exact List.mem_map_of_mem _ hf
    rw [hcount, hnewZero]

open GenerateMatches in
/-- Claim C5, witness: a ledger already holding `("a", "b")`; a run over
records whose names regenerate that pair leaves exactly one entry. -/
theorem c5_witness :
    unorderedUnique [(⟨"a", "b", 90, "", none, none, ""⟩ : LedgerEntry)] ∧
    unorderedUnique (run_generation
      [(⟨"a", "b", 90, "", none, none, ""⟩ : LedgerEntry)]
      [⟨"R1", "a"⟩, ⟨"R2", "b"⟩]) ∧
    pairCount (run_generation
      [(⟨"a", "b", 90, "", none, none, ""⟩ : LedgerEntry)]
      [⟨"R1", "a"⟩, ⟨"R2", "b"⟩]) "b" "a" = 1 :=
  ⟨by decide,
   (c5_ledger_unordered_unique
     [⟨"a", "b", 90, "", none, none, ""⟩] [⟨"R1", "a"⟩, ⟨"R2", "b"⟩]
     (by decide)).1,
   (c5_ledger_unordered_unique
     [⟨"a", "b", 90, "", none, none, ""⟩] [⟨"R1", "a"⟩, ⟨"R2", "b"⟩]
     (by decide)).2 "b" "a" (by decide)⟩

namespace PyStr

theorem charOfNat_toNat (n : ℕ) (h : n.isValidChar) : (Char.ofNat n).toNat = n := by
  unfold Char.ofNat
  simp only [h, reduceDIte]
  unfold Char.ofNatAux
  simp [Char.toNat, UInt32.toNat, BitVec.toNat_ofNatLt]

theorem lowerChar_not_upper (c : Char) : isUpperAscii (lowerChar c) = false := by
  unfold lowerChar
  split
  · rename_i h
    unfold isUpperAscii at h ⊢
    simp only [Bool.and_eq_true, decide_eq_true_eq] at h
    have hv : (c.toNat + 32).isValidChar := Or.inl (by omega)
    rw [charOfNat_toNat _ hv]
    simp only [Bool.and_eq_false_iff, decide_eq_false_iff_not]
    right
    omega
  · rename_i h
    unfold isUpperAscii at h ⊢
    simpa using h

theorem pyLower_noUpper (l : List Char) : NoUpper (pyLower l) := by
  intro c hc
  obtain ⟨d, _, rfl⟩ := List.mem_map.mp hc
  exact lowerChar_not_upper d

theorem mem_of_dropWhile {p : Char → Bool} {l : List Char} {c : Char}
    (h : c ∈ l.dropWhile p) : c ∈ l :=
  (List.dropWhile_sublist p).mem h

theorem mem_of_takeWhile {p : Char → Bool} {l : List Char} {c : Char}
    (h : c ∈ l.takeWhile p) : c ∈ l :=
  (List.takeWhile_sublist p).mem h

theorem pyStrip_subset {l : List Char} {c : Char} (h : c ∈ pyStrip l) : c ∈ l := by
  unfold pyStrip at h
  rw [List.mem_reverse] at h
  have h1 := mem_of_dropWhile h
  rw [List.mem_reverse] at h1
  exact mem_of_dropWhile h1

theorem wordsAux_chars : ∀ (l cur : List Char) (w : List Char) (c : Char),
    w ∈ wordsAux cur l → c ∈ w → c ∈ cur ∨ c ∈ l := by
  intro l
  induction l with
  | nil =>
    intro cur w c hw hc
    simp only [wordsAux] at hw
    split at hw
    · simp at hw
    · rw [List.mem_singleton] at hw
      rw [hw, List.mem_reverse] at hc
      exact Or.inl hc
  | cons x r ih =>
    intro cur w c hw hc
    simp only [wordsAux] at hw
    split at hw
    · split at hw
      · rcases ih [] w c hw hc with h | h
        · simp at h
        · exact Or.inr (List.mem_cons_of_mem x h)
      · rcases List.mem_cons.mp hw with h | h
        · rw [h, List.mem_reverse] at hc
          exact Or.inl hc
        · rcases ih [] w c h hc with h2 | h2
          · simp at h2
          · exact Or.inr (List.mem_cons_of_mem x h2)
    · rcases ih (x :: cur) w c hw hc with h | h
      · rcases List.mem_cons.mp h with h2 | h2
        · exact Or.inr (h2 ▸ List.mem_cons_self x r)
        · exact Or.inl h2
      · exact Or.inr (List.mem_cons_of_mem x h)

theorem pyWords_chars {l : List Char} {w : List Char} {c : Char}
    (hw : w ∈ pyWords l) (hc : c ∈ w) : c ∈ l := by
  rcases wordsAux_chars l [] w c hw hc with h | h
  · simp at h
  · exact h

theorem joinSpace_chars : ∀ (ws : List (List Char)) (c : Char),
    c ∈ joinSpace ws → c = ' ' ∨ ∃ w ∈ ws, c ∈ w := by
  intro ws
  induction ws with
  | nil => intro c hc; simp [joinSpace] at hc
  | cons w rest ih =>
    intro c hc
    cases rest with
    | nil =>
      simp only [joinSpace] at hc
      exact Or.inr ⟨w, List.mem_singleton_self w, hc⟩
    | cons w2 rest2 =>
      simp only [joinSpace] at hc
      rcases List.mem_append.mp hc with h | h
      · exact Or.inr ⟨w, List.mem_cons_self _ _, h⟩
      · rcases List.mem_cons.mp h with h2 | h2
        · exact Or.inl h2
        · rcases ih c h2 with h3 | ⟨v, hv, hcv⟩
          · exact Or.inl h3
          · exact Or.inr ⟨v, List.mem_cons_of_mem w hv, hcv⟩

theorem space_not_upper : isUpperAscii ' ' = false := by decide

end PyStr

namespace EnhancedMatching

open PyStr

theorem matchWs_subset {l r : List Char} {c : Char}
    (h : matchWs l = some r) (hc : c ∈ r) : c ∈ l := by
  cases l with
  | nil => simp [matchWs] at h
  | cons x rest =>
    simp only [matchWs] at h
    split at h
    · injection h with he
      rw [← he] at hc
      exact List.mem_cons_of_mem x (mem_of_dropWhile hc)
    · simp at h

theorem matchLit_subset {pat l r : List Char} {c : Char}
    (h : matchLit pat l = some r) (hc : c ∈ r) : c ∈ l := by
  unfold matchLit at h
  split at h
  · injection h with he
    rw [← he] at hc
    exact List.drop_subset _ l hc
  · simp at h

theorem matchOpt_subset {x : Char} {l : List Char} {c : Char}
    (hc : c ∈ matchOpt x l) : c ∈ l := by
  cases l with
  | nil => simp [matchOpt] at hc
  | cons y rest =>
    simp only [matchOpt] at hc
    split at hc
    · exact List.mem_cons_of_mem y hc
    · exact hc

theorem matchWord_subset {l : List Char} {w rest : List Char}
    (h : matchWord l = some (w, rest)) :
    (∀ c ∈ w, c ∈ l) ∧ (∀ c ∈ rest, c ∈ l) := by
  cases l with
  | nil => simp [matchWord] at h
  | cons x r =>
    simp only [matchWord] at h
    split at h
    · injection h with he
      injection he with he1 he2
      constructor
      · intro c hc
        rw [← he1] at hc
        rcases List.mem_cons.mp hc with h2 | h2
        · exact h2 ▸ List.mem_cons_self x r
        · exact List.mem_cons_of_mem x (mem_of_takeWhile h2)
      · intro c hc
        rw [← he2] at hc
        exact List.mem_cons_of_mem x (mem_of_dropWhile hc)
    · simp at h

theorem matchMayors_subset {l r : List Char} {c : Char}
    (h : matchMayors l = some r) (hc : c ∈ r) : c ∈ l := by
  unfold matchMayors at h
  cases hm : matchLit "mayor".data l with
  | none => rw [hm] at h; simp at h
  | some m =>
    rw [hm] at h
    injection h with he
    rw [← he] at hc
    exact matchLit_subset hm (matchOpt_subset (matchOpt_subset hc))

theorem tryNycLeading_subset {pw : Bool} {l r : List Char} {c : Char}
    (h : tryNycLeading pw l = some r) (hc : c ∈ r) : c ∈ l := by
  unfold tryNycLeading at h
  split at h
  · simp at h
  · cases h1 : matchLit "nyc".data l with
    | some m =>
      rw [h1] at h
      exact matchLit_subset h1 (matchWs_subset h hc)
    | none =>
      rw [h1] at h
      cases h2 : matchLit "new york city".data l with
      | some m =>
        rw [h2] at h
        exact matchLit_subset h2 (matchWs_subset h hc)
      | none => rw [h2] at h; simp at h

theorem tryNycSuffix_subset {l r : List Char} {c : Char}
    (h : tryNycSuffix l = some r) (hc : c ∈ r) : c ∈ l := by
  unfold tryNycSuffix at h
  have core_subset : ∀ (m : List Char),
      (match matchWs m with
       | none => none
       | some m1 =>
         match matchLit "nyc".data m1 with
         | some m2 => if boundaryRight m2 then some m2 else none
         | none =>
           match matchLit "new york city".data m1 with
           | some m2 => if boundaryRight m2 then some m2 else none
           | none => none) = some r → c ∈ m := by
    intro m hm
    cases hw : matchWs m with
    | none => rw [hw] at hm; simp at hm
    | some m1 =>
      rw [hw] at hm
      dsimp only at hm
      cases h1 : matchLit "nyc".data m1 with
      | some m2 =>
        rw [h1] at hm
        dsimp only at hm
        split at hm
        · injection hm with he
          rw [← he] at hc
          exact matchWs_subset hw (matchLit_subset h1 hc)
        · simp at hm
      | none =>
        rw [h1] at hm
        dsimp only at hm
        cases h2 : matchLit "new york city".data m1 with
        | some m2 =>
          rw [h2] at hm
          dsimp only at hm
          split at hm
          · injection hm with he
            rw [← he] at hc
            exact matchWs_subset hw (matchLit_subset h2 hc)
          · simp at hm
        | none => rw [h2] at hm; simp at hm
  split at h
  · rename_i x rest
    exact List.mem_cons_of_mem ',' (core_subset rest h)
  · exact core_subset l h

theorem delScanAux_noUpper
    (try? : Bool → List Char → Option (List Char))
    (hsub : ∀ (pw : Bool) (m rest : List Char), try? pw m = some rest →
      ∀ c ∈ rest, c ∈ m) :
    ∀ (f : ℕ) (pw : Bool) (l : List Char), NoUpper l →
      NoUpper (delScanAux try? f pw l) := by
  intro f
  induction f with
  | zero => intro pw l hl; exact hl
  | succ f ih =>
    intro pw l hl
    cases l with
    | nil => intro c hc; simp [delScanAux] at hc
    | cons x r =>
      simp only [delScanAux]
      cases ht : try? pw (x :: r) with
      | some rest =>
        refine ih false rest ?_
        intro c hc
        exact hl c (hsub pw (x :: r) rest ht c hc)
      | none =>
        intro c hc
        rcases List.mem_cons.mp hc with h1 | h1
        · exact hl c (h1 ▸ List.mem_cons_self x r)
        · exact ih (isWordChar x) r (fun d hd => hl d (List.mem_cons_of_mem x hd)) c h1

theorem rwScanAux_noUpper
    (try? : List Char → Option (List Char × List Char))
    (hok : ∀ (m : List Char) (repl rest : List Char),
      try? m = some (repl, rest) →
      (∀ c ∈ rest, c ∈ m) ∧ (NoUpper m → NoUpper repl)) :
    ∀ (f : ℕ) (l : List Char), NoUpper l → NoUpper (rwScanAux try? f l) := by
  intro f
  induction f with
  | zero => intro l hl; exact hl
  | succ f ih =>
    intro l hl
    cases l with
    | nil => intro c hc; simp [rwScanAux] at hc
    | cons x r =>
      simp only [rwScanAux]
      cases ht : try? (x :: r) with
      | some pr =>
        obtain ⟨repl, rest⟩ := pr
        obtain ⟨hrest, hrepl⟩ := hok (x :: r) repl rest ht
        intro c hc
        rcases List.mem_append.mp hc with h1 | h1
        · exact hrepl hl c h1
        · exact ih rest (fun d hd => hl d (hrest d hd)) c h1
      | none =>
        intro c hc
        rcases List.mem_cons.mp hc with h1 | h1
        · exact hl c (h1 ▸ List.mem_cons_self x r)
        · exact ih r (fun d hd => hl d (List.mem_cons_of_mem x hd)) c h1

end EnhancedMatching

namespace EnhancedMatching

open PyStr

theorem tryDeptOf_ok {m repl rest : List Char}
    (h : tryDeptOf m = some (repl, rest)) :
    (∀ c ∈ rest, c ∈ m) ∧ (NoUpper m → NoUpper repl) := by
  unfold tryDeptOf at h
  cases h1 : matchLit "department".data m with
  | none => rw [h1] at h; simp at h
  | some r1 =>
    rw [h1] at h; dsimp only at h
    cases h2 : matchWs r1 with
    | none => rw [h2] at h; simp at h
    | some r2 =>
      rw [h2] at h; dsimp only at h
      cases h3 : matchLit "of".data r2 with
      | none => rw [h3] at h; simp at h
      | some r3 =>
        rw [h3] at h; dsimp only at h
        cases h4 : matchWs r3 with
        | none => rw [h4] at h; simp at h
        | some r4 =>
          rw [h4] at h; dsimp only at h
          cases h5 : matchWord r4 with
          | none => rw [h5] at h; simp at h
          | some pr =>
            obtain ⟨w, r5⟩ := pr
            rw [h5] at h; dsimp only at h
            injection h with he
            injection he with he1 he2
            have hsub : ∀ c ∈ r4, c ∈ m := fun c hc =>
              matchLit_subset h1 (matchWs_subset h2 (matchLit_subset h3
                (matchWs_subset h4 hc)))
            constructor
            · intro c hc
              rw [← he2] at hc
              exact hsub c ((matchWord_subset h5).2 c hc)
            · intro hm c hc
              rw [← he1] at hc
              rcases List.mem_append.mp hc with hw | hlit
              · exact hm c (hsub c ((matchWord_subset h5).1 c hw))
              · exact (show ∀ x ∈ ' ' :: "department".data, PyStr.isUpperAscii x = false by
                  decide) c hlit

theorem tryOfficeOf_ok {m repl rest : List Char}
    (h : tryOfficeOf m = some (repl, rest)) :
    (∀ c ∈ rest, c ∈ m) ∧ (NoUpper m → NoUpper repl) := by
  unfold tryOfficeOf at h
  cases h1 : matchLit "office".data m with
  | none => rw [h1] at h; simp at h
  | some r1 =>
    rw [h1] at h; dsimp only at h
    cases h2 : matchWs r1 with
    | none => rw [h2] at h; simp at h
    | some r2 =>
      rw [h2] at h; dsimp only at h
      cases h3 : matchLit "of".data r2 with
      | none => rw [h3] at h; simp at h
      | some r3 =>
        rw [h3] at h; dsimp only at h
        cases h4 : matchWs r3 with
        | none => rw [h4] at h; simp at h
        | some r4 =>
          rw [h4] at h; dsimp only at h
          cases h5 : matchWord r4 with
          | none => rw [h5] at h; simp at h
          | some pr =>
            obtain ⟨w, r5⟩ := pr
            rw [h5] at h; dsimp only at h
            injection h with he
            injection he with he1 he2
            have hsub : ∀ c ∈ r4, c ∈ m := fun c hc =>
              matchLit_subset h1 (matchWs_subset h2 (matchLit_subset h3
                (matchWs_subset h4 hc)))
            constructor
            · intro c hc
              rw [← he2] at hc
              exact hsub c ((matchWord_subset h5).2 c hc)
            · intro hm c hc
              rw [← he1] at hc
              rcases List.mem_append.mp hc with hw | hlit
              · exact hm c (hsub c ((matchWord_subset h5).1 c hw))
              · exact (show ∀ x ∈ ' ' :: "office".data, PyStr.isUpperAscii x = false by
                  decide) c hlit

theorem tryCommissionOn_ok {m repl rest : List Char}
    (h : tryCommissionOn m = some (repl, rest)) :
    (∀ c ∈ rest, c ∈ m) ∧ (NoUpper m → NoUpper repl) := by
  unfold tryCommissionOn at h
  cases h1 : matchLit "commission".data m with
  | none => rw [h1] at h; simp at h
  | some r1 =>
    rw [h1] at h; dsimp only at h
    cases h2 : matchWs r1 with
    | none => rw [h2] at h; simp at h
    | some r2 =>
      rw [h2] at h; dsimp only at h
      cases h3 : matchLit "on".data r2 with
      | none => rw [h3] at h; simp at h
      | some r3 =>
        rw [h3] at h; dsimp only at h
        cases h4 : matchWs r3 with
        | none => rw [h4] at h; simp at h
        | some r4 =>
          rw [h4] at h; dsimp only at h
          cases h5 : matchWord r4 with
          | none => rw [h5] at h; simp at h
          | some pr =>
            obtain ⟨w, r5⟩ := pr
            rw [h5] at h; dsimp only at h
            injection h with he
            injection he with he1 he2
            have hsub : ∀ c ∈ r4, c ∈ m := fun c hc =>
              matchLit_subset h1 (matchWs_subset h2 (matchLit_subset h3
                (matchWs_subset h4 hc)))
            constructor
            · intro c hc
              rw [← he2] at hc
              exact hsub c ((matchWord_subset h5).2 c hc)
            · intro hm c hc
              rw [← he1] at hc
              rcases List.mem_append.mp hc with hw | hlit
              · exact hm c (hsub c ((matchWord_subset h5).1 c hw))
              · exact (show ∀ x ∈ ' ' :: "commission".data, PyStr.isUpperAscii x = false by
                  decide) c hlit

theorem tryMayorsOfficeOf_ok {m repl rest : List Char}
    (h : tryMayorsOfficeOf m = some (repl, rest)) :
    (∀ c ∈ rest, c ∈ m) ∧ (NoUpper m → NoUpper repl) := by
  unfold tryMayorsOfficeOf at h
  cases h1 : matchMayors m with
  | none => rw [h1] at h; simp at h
  | some r1 =>
    rw [h1] at h; dsimp only at h
    cases h2 : matchWs r1 with
    | none => rw [h2] at h; simp at h
    | some r2 =>
      rw [h2] at h; dsimp only at h
      cases h3 : matchLit "office".data r2 with
      | none => rw [h3] at h; simp at h
      | some r3 =>
        rw [h3] at h; dsimp only at h
        cases h4 : matchWs r3 with
        | none => rw [h4] at h; simp at h
        | some r4 =>
          rw [h4] at h; dsimp only at h
          cases h5 : matchLit "of".data r4 with
          | none => rw [h5] at h; simp at h
          | some r5 =>
            rw [h5] at h; dsimp only at h
            cases h6 : matchWs r5 with
            | none => rw [h6] at h; simp at h
            | some r6 =>
              rw [h6] at h; dsimp only at h
              cases h7 : matchWord r6 with
              | none => rw [h7] at h; simp at h
              | some pr =>
                obtain ⟨w, r7⟩ := pr
                rw [h7] at h; dsimp only at h
                injection h with he
                injection he with he1 he2
                have hsub : ∀ c ∈ r6, c ∈ m := fun c hc =>
                  matchMayors_subset h1 (matchWs_subset h2 (matchLit_subset h3
                    (matchWs_subset h4 (matchLit_subset h5 (matchWs_subset h6 hc)))))
                constructor
                · intro c hc
                  rw [← he2] at hc
                  exact hsub c ((matchWord_subset h7).2 c hc)
                · intro hm c hc
                  rw [← he1] at hc
                  rcases List.mem_append.mp hc with hlit | hw
                  · exact (show ∀ x ∈ "office of ".data, PyStr.isUpperAscii x = false by
                      decide) c hlit
                  · exact hm c (hsub c ((matchWord_subset h7).1 c hw))

theorem tryMayorsX_ok {m repl rest : List Char}
    (h : tryMayorsX m = some (repl, rest)) :
    (∀ c ∈ rest, c ∈ m) ∧ (NoUpper m → NoUpper repl) := by
  unfold tryMayorsX at h
  cases h1 : matchMayors m with
  | none => rw [h1] at h; simp at h
  | some r1 =>
    rw [h1] at h; dsimp only at h
    cases h2 : matchWs r1 with
    | none => rw [h2] at h; simp at h
    | some r2 =>
      rw [h2] at h; dsimp only at h
      cases h3 : matchWord r2 with
      | none => rw [h3] at h; simp at h
      | some pr =>
        obtain ⟨w, r3⟩ := pr
        rw [h3] at h; dsimp only at h
        cases h4 : matchWs r3 with
        | none => rw [h4] at h; simp at h
        | some r4 =>
          rw [h4] at h; dsimp only at h
          cases h5 : matchLit "office".data r4 with
          | none => rw [h5] at h; simp at h
          | some r5 =>
            rw [h5] at h; dsimp only at h
            injection h with he
            injection he with he1 he2
            have hsubw : ∀ c ∈ w, c ∈ m := fun c hc =>
              matchMayors_subset h1 (matchWs_subset h2
                ((matchWord_subset h3).1 c hc))
            constructor
            · intro c hc
              rw [← he2] at hc
              exact matchMayors_subset h1 (matchWs_subset h2
                ((matchWord_subset h3).2 c (matchWs_subset h4
                  (matchLit_subset h5 hc))))
            · intro hm c hc
              rw [← he1] at hc
              rcases List.mem_append.mp hc with hw | hlit
              · exact hm c (hsubw c hw)
              · exact (show ∀ x ∈ ' ' :: "office".data, PyStr.isUpperAscii x = false by
                  decide) c hlit

end EnhancedMatching

namespace EnhancedMatching

open PyStr

theorem pyStrip_noUpper {l : List Char} (h : NoUpper l) : NoUpper (pyStrip l) :=
  fun c hc => h c (pyStrip_subset hc)

theorem standardize_nyc_references_noUpper {l : List Char} (h : NoUpper l) :
    NoUpper (standardize_nyc_references l) := by
  unfold standardize_nyc_references
  refine pyStrip_noUpper ?_
  refine delScanAux_noUpper _ (fun _ m rest ht c hc => tryNycSuffix_subset ht hc) _ _ _ ?_
  exact delScanAux_noUpper _ (fun pw m rest ht c hc => tryNycLeading_subset ht hc) _ _ _ h

theorem standardize_org_type_noUpper {l : List Char} (h : NoUpper l) :
    NoUpper (standardize_org_type l) := by
  unfold standardize_org_type
  refine pyStrip_noUpper ?_
  refine rwScanAux_noUpper _ (fun m repl rest ht => tryCommissionOn_ok ht) _ _ ?_
  refine rwScanAux_noUpper _ (fun m repl rest ht => tryOfficeOf_ok ht) _ _ ?_
  exact rwScanAux_noUpper _ (fun m repl rest ht => tryDeptOf_ok ht) _ _ h

theorem standardize_mayors_office_noUpper {l : List Char} (h : NoUpper l) :
    NoUpper (standardize_mayors_office l) := by
  unfold standardize_mayors_office
  refine pyStrip_noUpper ?_
  refine rwScanAux_noUpper _ (fun m repl rest ht => tryMayorsX_ok ht) _ _ ?_
  exact rwScanAux_noUpper _ (fun m repl rest ht => tryMayorsOfficeOf_ok ht) _ _ h

theorem expand_abbreviations_noUpper {l : List Char} (h : NoUpper l) :
    NoUpper (expand_abbreviations l) := by
  unfold expand_abbreviations
  intro c hc
  rcases joinSpace_chars _ c hc with hsp | ⟨w, hw, hcw⟩
  · rw [hsp]; decide
  · obtain ⟨w0, hw0, hmap⟩ := List.mem_map.mp hw
    rw [← hmap] at hcw
    cases hf : abbreviationMap.find? (fun p => p.1 = pyLower w0) with
    | none =>
      rw [hf] at hcw
      simp only [Option.map_none', Option.getD_none] at hcw
      exact h c (pyWords_chars hw0 hcw)
    | some pr =>
      rw [hf] at hcw
      simp only [Option.map_some', Option.getD_some] at hcw
      have hmem := List.mem_of_find?_eq_some hf
      have hvals : ∀ p ∈ abbreviationMap, ∀ x ∈ p.2, isUpperAscii x = false := by
        decide
      exact hvals pr hmem c hcw

theorem preprocess_noUpper (l : List Char) : NoUpper (preprocess_agency_name l) := by
  unfold preprocess_agency_name
  split
  · intro c hc; simp at hc
  · exact pyStrip_noUpper (expand_abbreviations_noUpper
      (standardize_mayors_office_noUpper (standardize_org_type_noUpper
        (standardize_nyc_references_noUpper (pyLower_noUpper l)))))

theorem extractAcronymAux_some : ∀ (f : ℕ) (l a : List Char),
    extractAcronymAux f l = some a → ∃ c ∈ l, isUpperAscii c = true := by
  intro f
  induction f with
  | zero => intro l a h; simp [extractAcronymAux] at h
  | succ f ih =>
    intro l a h
    cases l with
    | nil => simp [extractAcronymAux] at h
    | cons x r =>
      simp only [extractAcronymAux] at h
      split at h
      · split at h
        · rename_i hrun
          cases hr : r.takeWhile isUpperAscii with
          | nil => rw [hr] at hrun; simp at hrun
          | cons u us =>
            have hu : u ∈ r.takeWhile isUpperAscii := by
              rw [hr]; exact List.mem_cons_self u us
            have hup : isUpperAscii u = true :=
              List.mem_takeWhile_imp hu
            exact ⟨u, List.mem_cons_of_mem x (mem_of_takeWhile hu), hup⟩
        · obtain ⟨c, hc, hcu⟩ := ih r a h
          exact ⟨c, List.mem_cons_of_mem x hc, hcu⟩
      · obtain ⟨c, hc, hcu⟩ := ih r a h
        exact ⟨c, List.mem_cons_of_mem x hc, hcu⟩

theorem extract_acronym_none {l : List Char} (h : NoUpper l) :
    extract_acronym l = none := by
  cases hx : extract_acronym l with
  | none => rfl
  | some a =>
    obtain ⟨c, hc, hcu⟩ := extractAcronymAux_some l.length l a hx
    rw [h c hc] at hcu
    exact absurd hcu (by simp)

theorem check_acronym_match_false_left {s1 s2 : List Char} (h : NoUpper s1) :
    check_acronym_match s1 s2 = false := by
  unfold check_acronym_match
  rw [extract_acronym_none h]

end EnhancedMatching

/-- Claim C10: the acronym bonus is unreachable through `find_matches`:
preprocessing lowercases both names, `check_acronym_match` recognizes
only ASCII-uppercase parenthetical acronyms, so it returns `false` on
the preprocessed names, and the score `find_matches` returns never
includes the +10 acronym bonus — it is exactly the exact-match /
canonical-name / composite-score-without-acronym-bonus cascade. -/
theorem c10_acronym_bonus_unreachable (n1 n2 : List Char) :
    EnhancedMatching.check_acronym_match
      (EnhancedMatching.preprocess_agency_name n1)
      (EnhancedMatching.preprocess_agency_name n2) = false ∧
    EnhancedMatching.find_matches n1 n2 =
      (if EnhancedMatching.preprocess_agency_name n1 =
          EnhancedMatching.preprocess_agency_name n2 then 100
       else if EnhancedMatching.check_canonical_names
          (EnhancedMatching.preprocess_agency_name n1)
          (EnhancedMatching.preprocess_agency_name n2) then 100
       else min 100
        (RapidFuzz.ratio (EnhancedMatching.preprocess_agency_name n1)
            (EnhancedMatching.preprocess_agency_name n2) * (0.6 : ℚ) +
          RapidFuzz.token_sort_ratio (EnhancedMatching.preprocess_agency_name n1)
            (EnhancedMatching.preprocess_agency_name n2) * (0.4 : ℚ) +
          (if EnhancedMatching.check_org_type_match
              (EnhancedMatching.preprocess_agency_name n1)
              (EnhancedMatching.preprocess_agency_name n2) then 5 else 0))) := by
  have hacr := @EnhancedMatching.check_acronym_match_false_left
    (EnhancedMatching.preprocess_agency_name n1)
    (EnhancedMatching.preprocess_agency_name n2)
    (EnhancedMatching.preprocess_noUpper n1)
  refine ⟨hacr, ?_⟩
  unfold EnhancedMatching.find_matches
  dsimp only
  split
  · rfl
  · split
    · rfl
    · unfold EnhancedMatching.get_enhanced_score
      rw [hacr]
      dsimp only
      by_cases ho : EnhancedMatching.check_org_type_match
          (EnhancedMatching.preprocess_agency_name n1)
          (EnhancedMatching.preprocess_agency_name n2) <;>
        simp [ho]

namespace PyStr

theorem wordsAux_ne_nil : ∀ (l cur : List Char) (w : List Char),
    w ∈ wordsAux cur l → w ≠ [] := by
  intro l
  induction l with
  | nil =>
    intro cur w hw
    simp only [wordsAux] at hw
    split at hw
    · simp at hw
    · rename_i hcur
      rw [List.mem_singleton] at hw
      rw [hw]
      simpa using hcur
  | cons x r ih =>
    intro cur w hw
    simp only [wordsAux] at hw
    split at hw
    · split at hw
      · exact ih [] w hw
      · rename_i hcur
        rcases List.mem_cons.mp hw with h | h
        · rw [h]; simpa using hcur
        · exact ih [] w h
    · exact ih (x :: cur) w hw

theorem wordsAux_nonspace : ∀ (l cur : List Char) (w : List Char) (c : Char),
    w ∈ wordsAux cur l → (∀ d ∈ cur, isSpaceChar d = false) →
    (∀ d ∈ l, isSpaceChar d = false ∨ True) → c ∈ w → isSpaceChar c = false := by
  intro l
  induction l with
  | nil =>
    intro cur w c hw hcur _ hc
    simp only [wordsAux] at hw
    split at hw
    · simp at hw
    · rw [List.mem_singleton] at hw
      rw [hw, List.mem_reverse] at hc
      exact hcur c hc
  | cons x r ih =>
    intro cur w c hw hcur _ hc
    simp only [wordsAux] at hw
    by_cases hx : isSpaceChar x
    · rw [if_pos hx] at hw
      split at hw
      · exact ih [] w c hw (by simp) (by simp) hc
      · rcases List.mem_cons.mp hw with h | h
        · rw [h, List.mem_reverse] at hc
          exact hcur c hc
        · exact ih [] w c h (by simp) (by simp) hc
    · rw [if_neg hx] at hw
      refine ih (x :: cur) w c hw ?_ (by simp) hc
      intro d hd
      rcases List.mem_cons.mp hd with h | h
      · rw [h]
        exact Bool.eq_false_iff.mpr hx
      · exact hcur d h

theorem wordsAux_all_nonspace : ∀ (w cur : List Char),
    (∀ c ∈ w, isSpaceChar c = false) →
    wordsAux cur w = if cur.reverse ++ w = [] then [] else [cur.reverse ++ w] := by
  intro w
  induction w with
  | nil =>
    intro cur _
    simp only [wordsAux, List.append_nil]
    by_cases hcur : cur = []
    · rw [if_pos hcur, if_pos (by rw [hcur]; rfl)]
    · rw [if_neg hcur, if_neg (by simpa using hcur)]
  | cons c r ih =>
    intro cur hns
    have hc : isSpaceChar c = false := hns c (List.mem_cons_self c r)
    simp only [wordsAux, hc]
    rw [if_neg (by simp)]
    rw [ih (c :: cur) (fun d hd => hns d (List.mem_cons_of_mem c hd))]
    rw [if_neg (by simp)]
    simp

theorem pyWords_single (w : List Char) (hne : w ≠ [])
    (hns : ∀ c ∈ w, isSpaceChar c = false) : pyWords w = [w] := by
  unfold pyWords
  rw [wordsAux_all_nonspace w [] hns]
  simp [hne]

theorem wordsAux_append_space : ∀ (x cur y : List Char),
    wordsAux cur (x ++ ' ' :: y) = wordsAux cur x ++ wordsAux [] y := by
  intro x
  induction x with
  | nil =>
    intro cur y
    simp only [List.nil_append, wordsAux]
    rw [if_pos (by decide)]
    split
    · simp
    · simp
  | cons c x' ih =>
    intro cur y
    simp only [List.cons_append, wordsAux, List.append_eq]
    by_cases hc : isSpaceChar c
    · rw [if_pos hc, if_pos hc]
      by_cases hcur : cur = []
      · rw [if_pos hcur, if_pos hcur, ih]
      · rw [if_neg hcur, if_neg hcur, ih]
        simp
    · rw [if_neg hc, if_neg hc, ih]

theorem pyWords_append_space (x y : List Char) :
    pyWords (x ++ ' ' :: y) = pyWords x ++ pyWords y := by
  unfold pyWords
  exact wordsAux_append_space x [] y

theorem pyWords_joinSpace_flat : ∀ es : List (List Char),
    pyWords (joinSpace es) = es.flatMap pyWords := by
  intro es
  induction es with
  | nil => simp [joinSpace, pyWords, wordsAux]
  | cons e rest ih =>
    cases rest with
    | nil => simp [joinSpace]
    | cons e2 r2 =>
      simp only [joinSpace]
      rw [pyWords_append_space, List.flatMap_cons, ih]

theorem pyWords_joinSpace (ws : List (List Char))
    (h : ∀ w ∈ ws, w ≠ [] ∧ ∀ c ∈ w, isSpaceChar c = false) :
    pyWords (joinSpace ws) = ws := by
  rw [pyWords_joinSpace_flat]
  induction ws with
  | nil => rfl
  | cons w rest ih =>
    rw [List.flatMap_cons]
    rw [pyWords_single w (h w (List.mem_cons_self w rest)).1
      (h w (List.mem_cons_self w rest)).2]
    rw [List.singleton_append]
    congr 1
    exact ih (fun v hv => h v (List.mem_cons_of_mem w hv))

end PyStr

namespace PyStr

theorem pyLower_id : ∀ l : List Char, NoUpper l → pyLower l = l := by
  intro l
  induction l with
  | nil => intro _; rfl
  | cons c r ih =>
    intro h
    have hc : lowerChar c = c := by
      unfold lowerChar
      rw [if_neg (by rw [h c (List.mem_cons_self c r)]; simp)]
    have hr := ih (fun d hd => h d (List.mem_cons_of_mem c hd))
    simp only [pyLower, List.map_cons] at hr ⊢
    rw [hc, hr]

end PyStr

namespace ReModel

open PyStr

theorem removeParensAux_id : ∀ l : List Char,
    (∀ c ∈ l, ¬ c = '(') → removeParensAux none l = l := by
  intro l
  induction l with
  | nil => intro _; rfl
  | cons c r ih =>
    intro h
    simp only [removeParensAux]
    rw [if_neg (h c (List.mem_cons_self c r))]
    rw [ih (fun d hd => h d (List.mem_cons_of_mem c hd))]

theorem removePossessive_id : ∀ l : List Char,
    (∀ c ∈ l, ¬ c = apos) → removePossessive l = l := by
  intro l
  induction l with
  | nil => intro _; rfl
  | cons c r ih =>
    intro h
    cases r with
    | nil => rfl
    | cons d r2 =>
      simp only [removePossessive]
      rw [if_neg (by
        intro hcon
        exact h c (List.mem_cons_self c (d :: r2)) hcon.1)]
      rw [ih (fun e he => h e (List.mem_cons_of_mem c he))]

theorem replaceAmp_id {l : List Char} (h : ∀ c ∈ l, ¬ c = '&') :
    replaceAmp l = l := by
  unfold replaceAmp
  induction l with
  | nil => rfl
  | cons c r ih =>
    rw [List.flatMap_cons]
    rw [if_neg (h c (List.mem_cons_self c r))]
    rw [ih (fun d hd => h d (List.mem_cons_of_mem c hd))]
    rfl

theorem removePunct_id {l : List Char}
    (h : ∀ c ∈ l, (isWordChar c || isSpaceChar c) = true) :
    removePunct l = l :=
  List.filter_eq_self.mpr h

theorem removeParensAux_subset : ∀ (l : List Char) (pend : Option (List Char))
    (c : Char), c ∈ removeParensAux pend l → c ∈ l ∨ c ∈ pend.getD [] := by
  intro l
  induction l with
  | nil =>
    intro pend c hc
    cases pend with
    | none => simp [removeParensAux] at hc
    | some buf =>
      simp only [removeParensAux] at hc
      rw [List.mem_reverse] at hc
      exact Or.inr hc
  | cons x r ih =>
    intro pend c hc
    cases pend with
    | none =>
      simp only [removeParensAux] at hc
      split at hc
      · rcases ih (some [x]) c hc with h | h
        · exact Or.inl (List.mem_cons_of_mem x h)
        · rename_i hx
          simp only [Option.getD_some, List.mem_singleton] at h
          exact Or.inl (h ▸ List.mem_cons_self x r)
      · rcases List.mem_cons.mp hc with h | h
        · exact Or.inl (h ▸ List.mem_cons_self x r)
        · rcases ih none c h with h2 | h2
          · exact Or.inl (List.mem_cons_of_mem x h2)
          · simp at h2
    | some buf =>
      simp only [removeParensAux] at hc
      split at hc
      · rcases ih none c hc with h | h
        · exact Or.inl (List.mem_cons_of_mem x h)
        · simp at h
      · split at hc
        · rcases List.mem_append.mp hc with h | h
          · rw [List.mem_reverse] at h
            exact Or.inr (by simpa using h)
          · rcases List.mem_cons.mp h with h2 | h2
            · exact Or.inl (h2 ▸ List.mem_cons_self x r)
            · rcases ih none c h2 with h3 | h3
              · exact Or.inl (List.mem_cons_of_mem x h3)
              · simp at h3
        · rcases ih (some (x :: buf)) c hc with h | h
          · exact Or.inl (List.mem_cons_of_mem x h)
          · simp only [Option.getD_some] at h
            rcases List.mem_cons.mp h with h2 | h2
            · exact Or.inl (h2 ▸ List.mem_cons_self x r)
            · exact Or.inr (by simpa using h2)

theorem removeParens_subset {l : List Char} {c : Char}
    (hc : c ∈ removeParens l) : c ∈ l := by
  rcases removeParensAux_subset l none c hc with h | h
  · exact h
  · simp at h

theorem removePossessive_subset : ∀ (l : List Char) (c : Char),
    c ∈ removePossessive l → c ∈ l := by
  intro l
  induction l using removePossessive.induct with
  | case1 => intro c hc; simp [removePossessive] at hc
  | case2 x => intro c hc; simpa [removePossessive] using hc
  | case3 x d r hcond ih =>
    intro c hc
    simp only [removePossessive] at hc
    rw [if_pos hcond] at hc
    exact List.mem_cons_of_mem x (List.mem_cons_of_mem d (ih c hc))
  | case4 x d r hcond ih =>
    intro c hc
    simp only [removePossessive] at hc
    rw [if_neg hcond] at hc
    rcases List.mem_cons.mp hc with h | h
    · exact h ▸ List.mem_cons_self x (d :: r)
    · exact List.mem_cons_of_mem x (ih c h)

theorem replaceAmp_chars {l : List Char} {c : Char}
    (hc : c ∈ replaceAmp l) : c ∈ l ∨ c ∈ ['a', 'n', 'd'] := by
  unfold replaceAmp at hc
  obtain ⟨d, hd, hcd⟩ := List.mem_flatMap.mp hc
  by_cases hamp : d = '&'
  · rw [if_pos hamp] at hcd
    exact Or.inr hcd
  · rw [if_neg hamp] at hcd
    rw [List.mem_singleton] at hcd
    exact Or.inl (hcd ▸ hd)

end ReModel

namespace PyStr

theorem map_id_of_mem {α : Type} (f : α → α) :
    ∀ l : List α, (∀ x ∈ l, f x = x) → l.map f = l := by
  intro l
  induction l with
  | nil => intro _; rfl
  | cons x r ih =>
    intro h
    rw [List.map_cons, h x (List.mem_cons_self x r),
      ih (fun y hy => h y (List.mem_cons_of_mem x hy))]

end PyStr

namespace DataNormalization

open PyStr ReModel

theorem expandWord_id {w : List Char}
    (h : abbreviations.find? (fun p => p.1 = w) = none) :
    expandWord abbreviations w = w := by
  unfold expandWord
  rw [h]
  rfl

/-- Every stage of `standardize_name` is the identity on a space-joined
list of canonical words. -/
theorem standardizeChars_canonical_id (ws : List (List Char))
    (h : ∀ w ∈ ws, CanonicalWord w) :
    standardizeChars (joinSpace ws) = joinSpace ws := by
  have hchar : ∀ c ∈ joinSpace ws,
      c = ' ' ∨ (isWordChar c = true ∧ isUpperAscii c = false ∧
        isSpaceChar c = false) := by
    intro c hc
    rcases joinSpace_chars ws c hc with hsp | ⟨w, hw, hcw⟩
    · exact Or.inl hsp
    · exact Or.inr ((h w hw).2.1 c hcw)
  have hWS : ∀ c ∈ joinSpace ws, (isWordChar c || isSpaceChar c) = true := by
    intro c hc
    rcases hchar c hc with hsp | ⟨hw, _, _⟩
    · rw [hsp]; decide
    · rw [hw]; simp
  have hNU : NoUpper (joinSpace ws) := by
    intro c hc
    rcases hchar c hc with hsp | ⟨_, hu, _⟩
    · rw [hsp]; decide
    · exact hu
  have hNoParen : ∀ c ∈ joinSpace ws, ¬ c = '(' := by
    intro c hc heq
    rcases hchar c hc with hsp | ⟨hw, _, _⟩
    · rw [heq] at hsp; exact absurd hsp (by decide)
    · rw [heq] at hw; exact absurd hw (by decide)
  have hNoApos : ∀ c ∈ joinSpace ws, ¬ c = apos := by
    intro c hc heq
    rcases hchar c hc with hsp | ⟨hw, _, _⟩
    · rw [heq] at hsp; exact absurd hsp (by decide)
    · rw [heq] at hw; exact absurd hw (by decide)
  have hNoAmp : ∀ c ∈ joinSpace ws, ¬ c = '&' := by
    intro c hc heq
    rcases hchar c hc with hsp | ⟨hw, _, _⟩
    · rw [heq] at hsp; exact absurd hsp (by decide)
    · rw [heq] at hw; exact absurd hw (by decide)
  have hwords : ∀ w ∈ ws, w ≠ [] ∧ ∀ c ∈ w, isSpaceChar c = false := by
    intro w hw
    exact ⟨(h w hw).1, fun c hc => ((h w hw).2.1 c hc).2.2⟩
  have e1 : pyLower (joinSpace ws) = joinSpace ws := pyLower_id _ hNU
  have e2 : removeParens (joinSpace ws) = joinSpace ws := by
    unfold removeParens
    exact removeParensAux_id _ hNoParen
  have e3 : removePossessive (joinSpace ws) = joinSpace ws :=
    removePossessive_id _ hNoApos
  have e4 : replaceAmp (joinSpace ws) = joinSpace ws := replaceAmp_id hNoAmp
  have e5 : removePunct (joinSpace ws) = joinSpace ws := removePunct_id hWS
  have e6 : normalizeWs (joinSpace ws) = joinSpace ws := by
    unfold normalizeWs
    rw [pyWords_joinSpace ws hwords]
  have e7 : expandAbbreviations abbreviations (joinSpace ws) = joinSpace ws := by
    unfold expandAbbreviations
    rw [pyWords_joinSpace ws hwords,
      map_id_of_mem _ ws (fun w hw => expandWord_id (h w hw).2.2.1)]
  have e8 : removeStopwords stopwords (joinSpace ws) = joinSpace ws := by
    unfold removeStopwords
    rw [pyWords_joinSpace ws hwords,
      List.filter_eq_self.mpr (fun w hw => by
        simpa using (h w hw).2.2.2)]
  unfold standardizeChars
  rw [e1, e2, e3, e4, e5, e6, e7, e8]

/-- The output of `standardize_name` is a space-joined list of
canonical words. -/
theorem standardizeChars_canonical (l : List Char) :
    ∃ ws, standardizeChars l = joinSpace ws ∧ ∀ w ∈ ws, CanonicalWord w := by
  set l5 := removePunct (replaceAmp (removePossessive (removeParens (pyLower l))))
    with hl5
  have h5a : ∀ c ∈ l5, (isWordChar c || isSpaceChar c) = true := by
    intro c hc
    rw [hl5] at hc
    unfold removePunct at hc
    have h2 := List.of_mem_filter hc
    exact h2
  have h5b : NoUpper l5 := by
    intro c hc
    rw [hl5] at hc
    unfold removePunct at hc
    have hc1 := List.mem_of_mem_filter hc
    rcases replaceAmp_chars hc1 with hc2 | hc2
    · exact pyLower_noUpper l c
        (removeParens_subset (removePossessive_subset _ c hc2))
    · exact (show ∀ x ∈ ['a', 'n', 'd'], isUpperAscii x = false by decide) c hc2
  have hws1 : ∀ w ∈ pyWords l5, w ≠ [] ∧
      ∀ c ∈ w, isWordChar c = true ∧ isUpperAscii c = false ∧
        isSpaceChar c = false := by
    intro w hw
    refine ⟨wordsAux_ne_nil l5 [] w hw, ?_⟩
    intro c hc
    have hcl5 : c ∈ l5 := pyWords_chars hw hc
    have hns : isSpaceChar c = false :=
      wordsAux_nonspace l5 [] w c hw (by simp) (by simp) hc
    have hword : isWordChar c = true := by
      have hor := h5a c hcl5
      simp only [Bool.or_eq_true] at hor
      rcases hor with hx | hx
      · exact hx
      · rw [hx] at hns
        exact absurd hns (by simp)
    exact ⟨hword, h5b c hcl5, hns⟩
  have hws1ns : ∀ w ∈ pyWords l5, w ≠ [] ∧ ∀ c ∈ w, isSpaceChar c = false :=
    fun w hw => ⟨(hws1 w hw).1, fun c hc => ((hws1 w hw).2 c hc).2.2⟩
  refine ⟨((pyWords l5).map (expandWord abbreviations)).flatMap pyWords
    |>.filter (fun w => ¬ w ∈ stopwords), ?_, ?_⟩
  · show removeStopwords stopwords
      (expandAbbreviations abbreviations (normalizeWs l5)) = _
    unfold normalizeWs expandAbbreviations removeStopwords
    rw [pyWords_joinSpace _ hws1ns, pyWords_joinSpace_flat]
  · intro w hw
    obtain ⟨hwf, hstop⟩ := List.mem_filter.mp hw
    have hstop' : ¬ w ∈ stopwords := by simpa using hstop
    obtain ⟨e, he, hwe⟩ := List.mem_flatMap.mp hwf
    obtain ⟨w0, hw0, hew0⟩ := List.mem_map.mp he
    cases hf : abbreviations.find? (fun p => p.1 = w0) with
    | none =>
      have he0 : e = w0 := by rw [← hew0]; exact expandWord_id hf
      rw [he0] at hwe
      rw [pyWords_single w0 (hws1 w0 hw0).1
        (fun c hc => ((hws1 w0 hw0).2 c hc).2.2)] at hwe
      rw [List.mem_singleton] at hwe
      rw [hwe]
      exact ⟨(hws1 w0 hw0).1, (hws1 w0 hw0).2, hf, hwe ▸ hstop'⟩
    | some pr =>
      have he0 : e = pr.2 := by
        rw [← hew0]
        unfold expandWord
        rw [hf]
        rfl
      have hmem := List.mem_of_find?_eq_some hf
      have hvals : ∀ p ∈ abbreviations, ∀ v ∈ pyWords p.2, v ≠ [] ∧
          (∀ c ∈ v, isWordChar c = true ∧ isUpperAscii c = false ∧
            isSpaceChar c = false) ∧
          abbreviations.find? (fun q => q.1 = v) = none := by
        decide
      rw [he0] at hwe
      obtain ⟨hv1, hv2, hv3⟩ := hvals pr hmem w hwe
      exact ⟨hv1, hv2, hv3, hstop'⟩

end DataNormalization

/-- Claim C3, amended: the `standardize_name` of
`src/data_normalization.py` is idempotent — its output is a space-joined
list of non-empty lowercase words that are neither abbreviation keys nor
stopwords, and every stage of a second pass is the identity on such
strings.  (`global_normalize_name` and the preprocessing
`standardize_name` are not idempotent; see the counterexample.) -/
theorem c3_amended_standardize_name_idempotent (s : String) :
    DataNormalization.standardize_name (DataNormalization.standardize_name s)
      = DataNormalization.standardize_name s := by
  obtain ⟨ws, heq, hws⟩ := DataNormalization.standardizeChars_canonical s.data
  have key : DataNormalization.standardizeChars
      (DataNormalization.standardizeChars s.data)
      = DataNormalization.standardizeChars s.data := by
    rw [heq]
    exact DataNormalization.standardizeChars_canonical_id ws hws
  exact congrArg String.mk key
